import Mathlib

/-!
Verification development for the aDDM toolbox (attentional drift-diffusion
model).  The definitions below are a shallow embedding, over exact rational
arithmetic, of the Python functions

  * `analysis_per_trial`  (addm.py, lines 19-214): the trial-likelihood
    propagation engine;
  * `run_simulations`     (addm.py, lines 306-490): the stochastic trial
    simulator, with randomness supplied by an explicit oracle stream;
  * the true-fixation-distribution corrector
    (simulate_addm_true_distributions.py, `main`, lines 334-399).

The Gaussian density and cumulative distribution used by the engine are
supplied by `scipy.stats.norm` in the source; since they are transcendental
they are abstracted here as explicit function parameters `pdf` and `cdf`
(arguments: evaluation point, mean, standard deviation).  Theorems that need
properties of the Gaussian state them as hypotheses (the density is strictly
positive, the cumulative distribution takes values strictly between 0 and 1),
which hold for every Gaussian with positive standard deviation.
-/

namespace ADDM

/-- Python float modulo `x % y` for positive `y`: `x - y * ⌊x / y⌋`. -/
def pymod (x y : ℚ) : ℚ := x - y * (Int.floor (x / y) : ℚ)

/-- Number of whole `timeStep` bins in a duration: Python `int(t // timeStep)`
as an integer (`//` on numbers is floor division). -/
def binsOf (timeStep t : ℚ) : ℤ := Int.floor (t / timeStep)

/-- Duration rounded down to a whole number of bins:
Python `t - (t % timeStep)`. -/
def binFloor (timeStep t : ℚ) : ℚ := t - pymod t timeStep

/-- Semantics of `np.arange(start, stop, step)` for positive `step`:
`⌈(stop - start) / step⌉` equally spaced points starting at `start`. -/
def arange (start stop step : ℚ) : List ℚ :=
  (List.range (Int.ceil ((stop - start) / step)).toNat).map
    (fun k : ℕ => start + (k : ℚ) * step)

/-- Snapping of near-zero states (addm.py lines 100-101): every state strictly
inside `(-0.01, 0.01)` is replaced by `0`. -/
def snapZero (s : ℚ) : ℚ := if -(1/100) < s ∧ s < 1/100 then 0 else s

/-- The discretized RDV axis (addm.py lines 98-101):
`np.arange(-barrier, barrier + stateStep, stateStep)` with near-zero states
snapped to exactly `0`. -/
def statesOf (barrier stateStep : ℚ) : List ℚ :=
  (arange (-barrier) (barrier + stateStep) stateStep).map snapZero

/-- Initial belief vector (addm.py lines 105-107): probability `1` on every
state equal to `0`, probability `0` elsewhere. -/
def prStatesInit (states : List ℚ) : List ℚ :=
  states.map (fun s => if s = 0 then 1 else 0)

/-- Number of states equal to exactly `0` in a state grid. -/
def countZeroStates (states : List ℚ) : ℕ :=
  (states.filter (fun s => decide (s = 0))).length

/-- Barrier decay constant (addm.py line 91): `decay = 0`, barriers constant. -/
def decayConst : ℚ := 0

/-- Upper barrier at time step `t` (addm.py line 95):
`barrier / (1 + decay * (t + 1))`. -/
def barrierUpAt (barrier : ℚ) (t : ℕ) : ℚ :=
  barrier / (1 + decayConst * ((t : ℚ) + 1))

/-- Lower barrier at time step `t` (addm.py line 96). -/
def barrierDownAt (barrier : ℚ) (t : ℕ) : ℚ :=
  -barrier / (1 + decayConst * ((t : ℚ) + 1))

/-- Drift mean for one fixation (addm.py lines 125-130): item `1` is a left
fixation, item `2` a right fixation, anything else a blank with zero drift. -/
def meanOf (d theta valueLeft valueRight : ℚ) (item : ℤ) : ℚ :=
  if item = 1 then d * (valueLeft - theta * valueRight)
  else if item = 2 then d * (-valueRight + theta * valueLeft)
  else 0

/-- Visual-delay correction (addm.py lines 59-74): when `visualDelay > 0`,
each item fixation is split into a blank prefix of `min(visualDelay, t)` and
the remainder `max(t - visualDelay, 0)`; otherwise the list is unchanged. -/
def correctVisual (visualDelay : ℚ) (fixItem : List ℤ) (fixTime : List ℚ) :
    List (ℤ × ℚ) :=
  if 0 < visualDelay then
    (fixItem.zip fixTime).flatMap (fun p =>
      if p.1 = 1 ∨ p.1 = 2 then
        [(0, min visualDelay p.2), (p.1, max (p.2 - visualDelay) 0)]
      else [p])
  else fixItem.zip fixTime

/-- Helper walking the fixation list from the end: the first item fixation
found has the motor delay subtracted (floored at 0); applied to the reversed
list by `correctMotor`. -/
def adjustLastFix (motorDelay : ℚ) : List (ℤ × ℚ) → List (ℤ × ℚ)
  | [] => []
  | p :: rest =>
    if p.1 = 1 ∨ p.1 = 2 then (p.1, max (p.2 - motorDelay) 0) :: rest
    else p :: adjustLastFix motorDelay rest

/-- Motor-delay correction (addm.py lines 77-81): when `motorDelay > 0`, the
last item fixation of the trial has the delay subtracted, floored at 0. -/
def correctMotor (motorDelay : ℚ) (l : List (ℤ × ℚ)) : List (ℤ × ℚ) :=
  if 0 < motorDelay then (adjustLastFix motorDelay l.reverse).reverse else l

/-- The corrected fixation sequence fed to the propagation loop. -/
def correctedFix (visualDelay motorDelay : ℚ) (fixItem : List ℤ)
    (fixTime : List ℚ) : List (ℤ × ℚ) :=
  correctMotor motorDelay (correctVisual visualDelay fixItem fixTime)

/-- Total number of time bins of a trial (addm.py lines 84-86):
`maxTime = Σ int(fTime // timeStep)`. -/
def maxTimeOf (timeStep : ℚ) (corrected : List (ℤ × ℚ)) : ℤ :=
  (corrected.map (fun p => binsOf timeStep p.2)).sum

/-- The per-bin drift means of a trial, in chronological order: each fixation
contributes `int(fTime // timeStep)` bins with its drift mean (addm.py
lines 121-133). -/
def meansOf (d theta valueLeft valueRight timeStep : ℚ)
    (corrected : List (ℤ × ℚ)) : List ℚ :=
  corrected.flatMap (fun p =>
    List.replicate (binsOf timeStep p.2).toNat
      (meanOf d theta valueLeft valueRight p.1))

/-- The un-renormalized new belief vector of one propagation step (addm.py
lines 134-151, variable `prStatesNew`): every state strictly inside the
current barrier pair receives the `stateStep`-scaled convolution of the
previous belief vector with the transition density. -/
def prStatesNewOf (pdf : ℚ → ℚ → ℚ → ℚ) (states : List ℚ)
    (stateStep std mean bUp bDown : ℚ) (ps : List ℚ) : List ℚ :=
  states.map (fun c =>
    if bDown < c ∧ c < bUp then
      stateStep * (List.zipWith (fun p s0 => p * pdf (c - s0) mean std) ps states).sum
    else 0)

/-- The un-renormalized upper-barrier absorption increment (addm.py
lines 157-159, variable `tempUpCross`). -/
def tempUpCrossOf (cdf : ℚ → ℚ → ℚ → ℚ) (std mean bUp : ℚ)
    (states ps : List ℚ) : ℚ :=
  (List.zipWith (fun p s0 => p * (1 - cdf (bUp - s0) mean std)) ps states).sum

/-- The un-renormalized lower-barrier absorption increment (addm.py
lines 160-162, variable `tempDownCross`). -/
def tempDownCrossOf (cdf : ℚ → ℚ → ℚ → ℚ) (std mean bDown : ℚ)
    (states ps : List ℚ) : ℚ :=
  (List.zipWith (fun p s0 => p * cdf (bDown - s0) mean std) ps states).sum

/-- Total un-renormalized mass of one step (addm.py line 166, variable
`sumCurrent`). -/
def sumCurrentOf (pdf cdf : ℚ → ℚ → ℚ → ℚ) (states : List ℚ)
    (stateStep std mean bUp bDown : ℚ) (ps : List ℚ) : ℚ :=
  (prStatesNewOf pdf states stateStep std mean bUp bDown ps).sum +
    tempUpCrossOf cdf std mean bUp states ps +
    tempDownCrossOf cdf std mean bDown states ps

/-- One propagation step of the likelihood engine (addm.py lines 134-169).
Given the belief vector `ps` over `states` at time `t`, returns the
renormalized new belief vector together with the renormalized upper- and
lower-barrier absorption increments of this step (the renormalization at
lines 164-169 scales all three by `sumIn / sumCurrent`). -/
def engineStep (pdf cdf : ℚ → ℚ → ℚ → ℚ) (states : List ℚ)
    (stateStep std barrier : ℚ) (mean : ℚ) (t : ℕ) (ps : List ℚ) :
    List ℚ × ℚ × ℚ :=
  ((prStatesNewOf pdf states stateStep std mean (barrierUpAt barrier t)
      (barrierDownAt barrier t) ps).map
    (fun x => x * ps.sum / sumCurrentOf pdf cdf states stateStep std mean
      (barrierUpAt barrier t) (barrierDownAt barrier t) ps),
   tempUpCrossOf cdf std mean (barrierUpAt barrier t) states ps * ps.sum /
     sumCurrentOf pdf cdf states stateStep std mean (barrierUpAt barrier t)
       (barrierDownAt barrier t) ps,
   tempDownCrossOf cdf std mean (barrierDownAt barrier t) states ps * ps.sum /
     sumCurrentOf pdf cdf states stateStep std mean (barrierUpAt barrier t)
       (barrierDownAt barrier t) ps)

/-- The propagation loop (addm.py lines 118-181): folds `engineStep` over the
per-bin means, the time index being the number of increments recorded so far;
`up` and `down` accumulate the per-step absorption increments, exactly as the
source writes `probUpCrossing[time] = tempUpCross` at successive indices. -/
def runEngine (pdf cdf : ℚ → ℚ → ℚ → ℚ) (states : List ℚ)
    (stateStep std barrier : ℚ) :
    List ℚ → List ℚ → List ℚ → List ℚ → List ℚ × List ℚ × List ℚ
  | [], ps, up, down => (ps, up, down)
  | m :: rest, ps, up, down =>
    let r := engineStep pdf cdf states stateStep std barrier m up.length ps
    runEngine pdf cdf states stateStep std barrier rest r.1
      (up ++ [r.2.1]) (down ++ [r.2.2])

/-- The effective noise parameter (addm.py lines 53-57): `std` when nonzero,
otherwise `mu * d`. -/
def resolveStd (d std mu : ℚ) : ℚ := if std = 0 then mu * d else std

/-- Shallow embedding of `analysis_per_trial` (addm.py lines 19-214).  The
reaction time `rt` is an argument of the source function but is never read by
its body.  Returns the likelihood of the observed choice. -/
def analysis_per_trial (pdf cdf : ℚ → ℚ → ℚ → ℚ) (rt : ℚ) (choice : ℤ)
    (valueLeft valueRight : ℚ) (fixItem : List ℤ) (fixTime : List ℚ)
    (d theta std mu timeStep stateStep barrier visualDelay motorDelay : ℚ) :
    ℚ :=
  if std = 0 ∧ mu = 0 then 0
  else
    let stdR := resolveStd d std mu
    let corrected := correctedFix visualDelay motorDelay fixItem fixTime
    if maxTimeOf timeStep corrected = 0 then 0
    else
      let states := statesOf barrier stateStep
      let r := runEngine pdf cdf states stateStep stdR barrier
        (meansOf d theta valueLeft valueRight timeStep corrected)
        (prStatesInit states) [] []
      if choice = -1 then
        (if 0 < r.2.1.getLastD 0 then r.2.1.getLastD 0 else 0)
      else if choice = 1 then
        (if 0 < r.2.2.getLastD 0 then r.2.2.getLastD 0 else 0)
      else 0

/-- The per-bin drift means computed by `analysis_per_trial` for a trial,
after the delay corrections. -/
def engineMeans (d theta valueLeft valueRight timeStep visualDelay motorDelay : ℚ)
    (fixItem : List ℤ) (fixTime : List ℚ) : List ℚ :=
  meansOf d theta valueLeft valueRight timeStep
    (correctedFix visualDelay motorDelay fixItem fixTime)

/-- The propagation loop as run by `analysis_per_trial`: from the pinned
initial belief vector, over the state grid, with empty initial traces. -/
def engineRunOn (pdf cdf : ℚ → ℚ → ℚ → ℚ) (stateStep stdR barrier : ℚ)
    (means : List ℚ) : List ℚ × List ℚ × List ℚ :=
  runEngine pdf cdf (statesOf barrier stateStep) stateStep stdR barrier means
    (prStatesInit (statesOf barrier stateStep)) [] []

/-! ### The stochastic trial simulator (addm.py, `run_simulations`)

Randomness is supplied by an explicit oracle stream of rationals.  Each call
to `np.random.normal(mean, std)` consumes one draw `z` and yields
`mean + std * z`; each `np.random.choice(arr)` consumes one draw used as an
index into the sampled array; the first-fixation side draw is compared against
`probLeftFixFirst` (inverse-cdf sampling of `np.random.choice([1, 2], p=...)`).
The unbounded `while` loops of the source are modelled with a fuel parameter;
`none` means the fuel was exhausted before the loop finished. -/

/-- Oracle stream of random draws. -/
def Rng : Type := List ℚ

/-- Pop the next draw from the oracle (0 once the stream is exhausted). -/
def rngNext : Rng → ℚ × Rng
  | [] => (0, [])
  | x :: xs => (x, xs)

/-- Model of `np.random.choice(arr)`: one draw selects an index into the
sampled array. -/
def choiceFrom (l : List ℚ) (rng : Rng) : ℚ × Rng :=
  let r := rngNext rng
  (l.getD ((Int.floor r.1).toNat % l.length) 0, r.2)

/-- Walk the RDV for at most `n` time bins with drift `mean` (one Gaussian
increment `mean + std * z` per bin), stopping early when a barrier is reached
(`RDV >= barrier or RDV <= -barrier`).  Returns the final RDV, the remaining
oracle, whether a barrier was reached, and the number of bins consumed (the
source's `t + 1` at a crossing). -/
def diffuse (std barrier mean : ℚ) : ℕ → ℚ → Rng → ℚ × Rng × Bool × ℕ
  | 0, rdv, rng => (rdv, rng, false, 0)
  | n + 1, rdv, rng =>
    let r := rngNext rng
    let rdv1 := rdv + (mean + std * r.1)
    if barrier ≤ rdv1 ∨ rdv1 ≤ -barrier then (rdv1, r.2, true, 1)
    else
      let w := diffuse std barrier mean n rdv1 r.2
      (w.1, w.2.1, w.2.2.1, w.2.2.2 + 1)

/-- One completed simulated trial (the per-trial fields of the `Simul` named
tuple of addm.py lines 486-490). -/
structure TrialRec where
  rt : ℚ
  choice : ℤ
  valueLeft : ℚ
  valueRight : ℚ
  fixItem : List ℤ
  fixTime : List ℚ
  fixRDV : List ℚ
  uninterruptedLastFixTime : ℚ
  deriving DecidableEq, Repr

/-- Outcome of one attempt at simulating a trial: completed with a record, or
aborted (a barrier was hit during a latency or transition period). -/
inductive AttemptResult where
  | completed : TrialRec → Rng → AttemptResult
  | aborted : Rng → AttemptResult

/-- Bundled simulator parameters (the arguments of `run_simulations`). -/
structure SimParams where
  probLeftFixFirst : ℚ
  distLatencies : List ℚ
  distTransitions : List ℚ
  distFix : ℕ → ℚ → List ℚ
  numTrials : ℕ
  d : ℚ
  theta : ℚ
  timeStep : ℚ
  barrier : ℚ
  numFixDists : ℕ
  visualDelay : ℚ
  motorDelay : ℚ

/-- The latency loop of one trial attempt (addm.py lines 341-363): sample a
latency, walk the RDV through its bins with zero drift; a barrier hit restarts
the loop with the RDV reset to 0, otherwise return the RDV after the latency,
the sampled latency and the remaining oracle. -/
def latencyPhase (P : SimParams) (std : ℚ) : ℕ → Rng → Option (ℚ × ℚ × Rng)
  | 0, _ => none
  | fuel + 1, rng =>
    let c := choiceFrom P.distLatencies rng
    let w := diffuse std P.barrier 0 (binsOf P.timeStep c.1).toNat 0 c.2
    if w.2.2.1 then latencyPhase P std fuel w.2.1
    else some (w.1, c.1, w.2.1)

/-- The trial record written when the RDV crosses a barrier during a fixation
(addm.py lines 383-397 and 417-433): the choice is `-1` for an upper crossing
and `1` for a lower crossing, the truncated fixation is appended with the
given duration entry, and the reaction time is the running trial time plus
that entry. -/
def crossRec (barrier vLeft vRight : ℚ) (currFixItem : ℤ)
    (accI : List ℤ) (accT accR : List ℚ)
    (trialTime entry rdvFinal uninterrupted : ℚ) : TrialRec :=
  { rt := trialTime + entry
    choice := if barrier ≤ rdvFinal then -1 else 1
    valueLeft := vLeft, valueRight := vRight
    fixItem := accI ++ [currFixItem]
    fixTime := accT ++ [entry]
    fixRDV := accR ++ [rdvFinal]
    uninterruptedLastFixTime := uninterrupted }

/-- The fixation loop of one trial attempt (addm.py lines 376-479), carrying
the RDV, the running trial time, the current fixation (item and remaining
duration), the fixation-distribution index, and the per-trial data lists. -/
def fixLoop (P : SimParams) (std vLeft vRight : ℚ) :
    ℕ → ℚ → ℚ → ℚ → ℤ → ℕ → List ℤ → List ℚ → List ℚ → Rng →
    Option AttemptResult
  | 0, _, _, _, _, _, _, _, _, _ => none
  | fuel + 1, rdv, trialTime, currFixTime, currFixItem, fixNumber,
    accI, accT, accR, rng =>
    -- Visual-delay sub-interval of the current fixation (zero drift).
    let wv := diffuse std P.barrier 0 (binsOf P.timeStep P.visualDelay).toNat rdv rng
    if wv.2.2.1 then
      some (.completed (crossRec P.barrier vLeft vRight currFixItem accI accT accR
        trialTime ((wv.2.2.2 : ℚ) * P.timeStep + P.motorDelay) wv.1 currFixTime)
        wv.2.1)
    else
      -- Drift-bearing interval of the current fixation.
      let mean := if currFixItem = 1 then P.d * (vLeft - P.theta * vRight)
        else P.d * (-vRight + P.theta * vLeft)
      let wf := diffuse std P.barrier mean (binsOf P.timeStep currFixTime).toNat
        wv.1 wv.2.1
      if wf.2.2.1 then
        some (.completed (crossRec P.barrier vLeft vRight currFixItem accI accT accR
          trialTime ((wf.2.2.2 : ℚ) * P.timeStep + P.visualDelay + P.motorDelay)
          wf.1 currFixTime) wf.2.1)
      else
        -- The fixation completed without a crossing: record it.
        let accI1 := accI ++ [currFixItem]
        let accT1 := accT ++ [binFloor P.timeStep currFixTime + P.visualDelay]
        let accR1 := accR ++ [wf.1]
        let trialTime1 := trialTime + (binFloor P.timeStep currFixTime + P.visualDelay)
        -- Transition period (zero drift); a crossing aborts the trial.
        let ct := choiceFrom P.distTransitions wf.2.1
        let wt := diffuse std P.barrier 0 (binsOf P.timeStep ct.1).toNat wf.1 ct.2
        if wt.2.2.1 then some (.aborted wt.2.1)
        else
          let accI2 := accI1 ++ [0]
          let accT2 := accT1 ++ [binFloor P.timeStep ct.1]
          let accR2 := accR1 ++ [wt.1]
          let trialTime2 := trialTime1 + binFloor P.timeStep ct.1
          let nextItem : ℤ := if currFixItem = 1 then 2
            else if currFixItem = 2 then 1 else currFixItem
          let valueDiff := if nextItem = 1 then vLeft - vRight else vRight - vLeft
          let cf := choiceFrom (P.distFix fixNumber valueDiff) wt.2.1
          let fixNumber1 := if fixNumber < P.numFixDists then fixNumber + 1
            else fixNumber
          fixLoop P std vLeft vRight fuel wt.1 trialTime2 (cf.1 - P.visualDelay)
            nextItem fixNumber1 accI2 accT2 accR2 cf.2

/-- One attempt at simulating a trial for condition `(vLeft, vRight)`
(addm.py lines 337-479): latency phase, first-fixation sampling, then the
fixation loop. -/
def trialAttempt (P : SimParams) (std vLeft vRight : ℚ) (fuel : ℕ)
    (rng : Rng) : Option AttemptResult :=
  match latencyPhase P std fuel rng with
  | none => none
  | some lp =>
    let rdv0 := lp.1
    let latency := lp.2.1
    let r1 := rngNext lp.2.2
    let firstItem : ℤ := if r1.1 < P.probLeftFixFirst then 1 else 2
    let valueDiff := if firstItem = 1 then vLeft - vRight else vRight - vLeft
    let cf := choiceFrom (P.distFix 1 valueDiff) r1.2
    fixLoop P std vLeft vRight fuel rdv0 (binFloor P.timeStep latency)
      (cf.1 - P.visualDelay) firstItem 2
      [0] [binFloor P.timeStep latency] [rdv0] cf.2

/-- The per-condition loop (addm.py lines 332-484): repeat attempts until
`remaining` completed trials are collected; aborted attempts leave no trace
and do not consume the trial count. -/
def condLoop (P : SimParams) (std vLeft vRight : ℚ) :
    ℕ → ℕ → Rng → List TrialRec → Option (List TrialRec × Rng)
  | 0, _, rng, acc => some (acc, rng)
  | _ + 1, 0, _, _ => none
  | remaining + 1, fuel + 1, rng, acc =>
    match trialAttempt P std vLeft vRight (fuel + 1) rng with
    | none => none
    | some (.completed rec rng1) =>
      condLoop P std vLeft vRight remaining fuel rng1 (acc ++ [rec])
    | some (.aborted rng1) =>
      condLoop P std vLeft vRight (remaining + 1) fuel rng1 acc

/-- The outer loop over trial conditions (addm.py line 327), threading the
oracle and grouping the completed trials by condition. -/
def runConds (P : SimParams) (std : ℚ) :
    List (ℚ × ℚ) → ℕ → Rng → Option (List (List TrialRec) × Rng)
  | [], _, rng => some ([], rng)
  | c :: rest, fuel, rng =>
    match condLoop P std c.1 c.2 P.numTrials fuel rng [] with
    | none => none
    | some g =>
      match runConds P std rest fuel g.2 with
      | none => none
      | some gs => some (g.1 :: gs.1, gs.2)

/-- Shallow embedding of `run_simulations` (addm.py lines 306-490): resolves
the noise parameter (returning `none` for the source's `return None` when
`std == 0` and `mu == 0`), then runs every trial condition.  The result groups
the completed trials by condition, in order; flattening the groups in order
recovers the source's dictionaries keyed by consecutive `trialCount`. -/
def run_simulations (P : SimParams) (std mu : ℚ)
    (trialConditions : List (ℚ × ℚ)) (fuel : ℕ) (rng : Rng) :
    Option (List (List TrialRec)) :=
  if std = 0 ∧ mu = 0 then none
  else
    match runConds P (resolveStd P.d std mu) trialConditions fuel rng with
    | none => none
    | some gs => some gs.1

/-- Test fixture: minimal non-degenerate simulator parameters (one trial of
one condition, all distributions a single sample). -/
def sampleParams : SimParams :=
  { probLeftFixFirst := 1, distLatencies := [0], distTransitions := [0],
    distFix := fun _ _ => [10], numTrials := 1, d := 0, theta := 0,
    timeStep := 10, barrier := 1, numFixDists := 3, visualDelay := 0,
    motorDelay := 0 }

/-- Test fixture: the trial produced by `sampleParams` with oracle
`[0, 0, 0, 5]`: zero latency, first (left) fixation of 10 ms whose single bin
moves the RDV to 5, crossing the upper barrier. -/
def sampleTrial : TrialRec :=
  { rt := 10, choice := -1, valueLeft := 0, valueRight := 0,
    fixItem := [0, 1], fixTime := [0, 10], fixRDV := [0, 5],
    uninterruptedLastFixTime := 10 }

/-- Non-degeneracy conditions on the simulator inputs: positive time step and
barrier, nonnegative delays, nonnegative latency and transition samples, and
fixation-duration distributions that are nonempty with every sample at least
the visual delay. -/
def ParamsOK (P : SimParams) : Prop :=
  0 < P.timeStep ∧ 0 < P.barrier ∧ 0 ≤ P.visualDelay ∧ 0 ≤ P.motorDelay ∧
  (∀ x ∈ P.distLatencies, 0 ≤ x) ∧ (∀ x ∈ P.distTransitions, 0 ≤ x) ∧
  (∀ n v, P.distFix n v ≠ [] ∧ ∀ x ∈ P.distFix n v, P.visualDelay ≤ x)

/-! ### The true-fixation-distribution corrector
(simulate_addm_true_distributions.py, `main`, lines 334-399). -/

/-- Probability that a fixation in a cell is not the last fixation
(simulate_addm_true_distributions.py lines 376-380): `1` when the cell's total
count is zero, else `1 - countLastKFix / countTotal`. -/
def probNotLastFix (countLast countTotal : ℕ) : ℚ :=
  if 0 < countTotal then 1 - (countLast : ℚ) / (countTotal : ℚ) else 1

/-- Probability that a fixation in a cell is the last fixation, taken as `0`
when the cell's total count is zero (the claim's reading of the same code). -/
def probLastFix (countLast countTotal : ℕ) : ℚ :=
  if 0 < countTotal then (countLast : ℚ) / (countTotal : ℚ) else 0

/-- One cell of the corrected distribution before renormalization
(simulate_addm_true_distributions.py lines 381-387): the empirical value
divided by `probNotLastFix`, left unchanged when that divisor is zero. -/
def trueFixDistPre (emp : ℚ) (countLast countTotal : ℕ) : ℚ :=
  if probNotLastFix countLast countTotal = 0 then emp
  else emp / probNotLastFix countLast countTotal

/-- Renormalization of one (fixation-index, value-difference) distribution
(simulate_addm_true_distributions.py lines 389-396): divide every bin by the
sum over bins when that sum is positive, else leave the distribution
unchanged. -/
def normalizeDist (bins : List ℚ) (f : ℚ → ℚ) : ℚ → ℚ :=
  if 0 < (bins.map f).sum then fun b => f b / (bins.map f).sum else f

/-- Time bin of a duration (simulate_addm_true_distributions.py lines 306,
355, 363-365): `binStep * min((time // binStep) + 1, len(bins))`. -/
def binOf (binStep : ℚ) (numBins : ℕ) (time : ℚ) : ℚ :=
  binStep * ((min (Int.floor (time / binStep) + 1) (numBins : ℤ) : ℤ) : ℚ)

/-- Value difference of the fixated item relative to the unfixated one
(the `fixUnfixValueDiffs` dictionary): only the keys 1 and 2 occur. -/
def vDiffOf (vLeft vRight : ℚ) (item : ℤ) : ℚ :=
  if item = 1 then vLeft - vRight else if item = 2 then vRight - vLeft else 0

/-- One counting cell: (fixation index, value difference, time bin). -/
abbrev Cell : Type := ℕ × ℚ × ℚ

/-- Walk of the non-last fixations of a trial (simulate_addm_true_
distributions.py lines 351-359): item fixations emit their cell and advance
the fixation index (capped at `numFixDists`); returns the emitted cells and
the final fixation index used for the last fixation. -/
def walkFixations (numFixDists : ℕ) (binStep : ℚ) (numBins : ℕ)
    (vLeft vRight : ℚ) : ℕ → List (ℤ × ℚ) → List Cell × ℕ
  | numFix, [] => ([], numFix)
  | numFix, p :: rest =>
    if p.1 = 1 ∨ p.1 = 2 then
      let r := walkFixations numFixDists binStep numBins vLeft vRight
        (if numFix < numFixDists then numFix + 1 else numFix) rest
      ((numFix, vDiffOf vLeft vRight p.1, binOf binStep numBins p.2) :: r.1, r.2)
    else walkFixations numFixDists binStep numBins vLeft vRight numFix rest

/-- The counting cells of one simulated trial: the cells of its non-last
fixations, and the cell of its last fixation (which uses the uninterrupted
duration, lines 360-367). -/
def trialCells (numFixDists : ℕ) (binStep : ℚ) (numBins : ℕ)
    (rec : TrialRec) : List Cell × Cell :=
  let w := walkFixations numFixDists binStep numBins rec.valueLeft
    rec.valueRight 1 ((rec.fixItem.dropLast).zip (rec.fixTime.dropLast))
  (w.1, (w.2, vDiffOf rec.valueLeft rec.valueRight (rec.fixItem.getLastD 0),
    binOf binStep numBins rec.uninterruptedLastFixTime))

/-- Total fixation count of a cell over a simulated corpus
(lines 357 and 367): every non-last item fixation counts once, and every last
fixation counts once. -/
def countTotalCells (numFixDists : ℕ) (binStep : ℚ) (numBins : ℕ)
    (trials : List TrialRec) (cell : Cell) : ℕ :=
  (trials.map (fun tr =>
    let w := trialCells numFixDists binStep numBins tr
    w.1.count cell + (if w.2 = cell then 1 else 0))).sum

/-- Last-fixation count of a cell over a simulated corpus (line 366). -/
def countLastFixCells (numFixDists : ℕ) (binStep : ℚ) (numBins : ℕ)
    (trials : List TrialRec) (cell : Cell) : ℕ :=
  (trials.map (fun tr =>
    if (trialCells numFixDists binStep numBins tr).2 = cell then 1 else 0)).sum

/-! ### Helper evaluation lemmas -/

/-- With the default-style geometry `barrier = 1`, `stateStep = 1`, the state
grid is the three states `-1, 0, 1`. -/
lemma statesOf_one_one : statesOf 1 1 = [-1, 0, 1] := by
  unfold statesOf arange
  rw [show ((1:ℚ) + 1 - -1) / 1 = 3 by norm_num]
  rw [show (Int.ceil ((3:ℚ))).toNat = 3 by norm_num; rfl]
  simp [List.range_succ, snapZero]
  norm_num

/-- Initial belief vector on the three-state grid. -/
lemma prStatesInit_three : prStatesInit [-1, 0, 1] = [0, 1, 0] := by
  simp [prStatesInit]

/-! ### Claim C5 -/

/-- Claim C5, amended: whenever the noise parameter `std` equals 0 and `mu`
equals 0, `analysis_per_trial` returns the zero-likelihood sentinel 0.  (The
source guard at addm.py lines 53-57 tests exact equality with zero, not
`sigma <= 0`, and derives `std = mu * d` for any nonzero `mu`, positive or
not.) -/
theorem C5_amended (pdf cdf : ℚ → ℚ → ℚ → ℚ) (rt : ℚ) (choice : ℤ)
    (valueLeft valueRight : ℚ) (fixItem : List ℤ) (fixTime : List ℚ)
    (d theta std mu timeStep stateStep barrier visualDelay motorDelay : ℚ)
    (hstd : std = 0) (hmu : mu = 0) :
    analysis_per_trial pdf cdf rt choice valueLeft valueRight fixItem fixTime
      d theta std mu timeStep stateStep barrier visualDelay motorDelay = 0 := by
  unfold analysis_per_trial
  rw [if_pos ⟨hstd, hmu⟩]

/-- Claim C5 witness: a concrete trial with `std = 0`, `mu = 0` has
likelihood 0. -/
theorem C5_witness :
    analysis_per_trial (fun _ _ _ => 1) (fun _ _ _ => 1/2) 300 (-1) 3 0
      [1] [300] (6/1000) (1/2) 0 0 10 (1/10) 1 0 0 = 0 :=
  C5_amended (fun _ _ _ => 1) (fun _ _ _ => 1/2) 300 (-1) 3 0
    [1] [300] (6/1000) (1/2) 0 0 10 (1/10) 1 0 0 rfl rfl

/-- Claim C5 counterexample: with `std = 0 ≤ 0` and `mu = -1` (no positive
`mu`), but `d = -1/2`, the source derives the effective noise
`std = mu * d = 1/2 > 0` and proceeds; on a one-fixation trial the returned
likelihood is `3/8`, not the zero sentinel the claim requires. -/
theorem C5_counterexample :
    (0:ℚ) ≤ 0 ∧ ¬ ((0:ℚ) < -1) ∧
    analysis_per_trial (fun _ _ _ => 1) (fun _ _ _ => 1/4) 10 (-1) 0 0
      [1] [10] (-1/2) 0 0 (-1) 10 1 1 0 0 = 3/8 ∧ (3/8 : ℚ) ≠ 0 := by
  refine ⟨le_refl 0, by norm_num, ?_, by norm_num⟩
  unfold analysis_per_trial
  rw [if_neg (by norm_num)]
  norm_num [resolveStd, correctedFix, correctVisual, correctMotor, maxTimeOf,
    binsOf, meansOf, meanOf, statesOf_one_one, prStatesInit_three, runEngine,
    engineStep, prStatesNewOf, tempUpCrossOf, tempDownCrossOf, sumCurrentOf,
    barrierUpAt, barrierDownAt, decayConst]

/-! ### Claim C7 -/

/-- Claim C7: for every trial whose corrected fixation durations yield a
total bin count of 0 (`maxTime = Σ duration // timeStep = 0`),
`analysis_per_trial` returns likelihood 0, for every parameter setting. -/
theorem C7_zero_bins (pdf cdf : ℚ → ℚ → ℚ → ℚ) (rt : ℚ) (choice : ℤ)
    (valueLeft valueRight : ℚ) (fixItem : List ℤ) (fixTime : List ℚ)
    (d theta std mu timeStep stateStep barrier visualDelay motorDelay : ℚ)
    (h : maxTimeOf timeStep
      (correctedFix visualDelay motorDelay fixItem fixTime) = 0) :
    analysis_per_trial pdf cdf rt choice valueLeft valueRight fixItem fixTime
      d theta std mu timeStep stateStep barrier visualDelay motorDelay = 0 := by
  unfold analysis_per_trial
  split
  · rfl
  · simp only [h, if_pos]

/-- Claim C7 witness: the empty fixation list gives 0 bins, hence
likelihood 0, at a parameter setting with valid noise. -/
theorem C7_witness :
    analysis_per_trial (fun _ _ _ => 1) (fun _ _ _ => 1/2) 0 (-1) 3 0
      [] [] (6/1000) (1/2) (6/100) 0 10 (1/10) 1 0 0 = 0 :=
  C7_zero_bins (fun _ _ _ => 1) (fun _ _ _ => 1/2) 0 (-1) 3 0
    [] [] (6/1000) (1/2) (6/100) 0 10 (1/10) 1 0 0
    (by norm_num [maxTimeOf, correctedFix, correctVisual, correctMotor])

/-! ### Claim C8 -/

/-- Total initial belief mass equals the number of zero states, since the
initialization puts mass 1 on every state equal to 0. -/
lemma prStatesInit_sum (l : List ℚ) :
    (prStatesInit l).sum = (countZeroStates l : ℚ) := by
  induction l with
  | nil => simp [prStatesInit, countZeroStates]
  | cons x xs ih =>
    simp only [prStatesInit, List.map_cons, List.sum_cons, countZeroStates,
      List.filter_cons] at *
    by_cases hx : x = 0
    · simp [hx] at *
      rw [ih]
      ring
    · simp [hx] at *
      exact ih

/-- Filtering the range for one index yields exactly that index. -/
lemma filter_range_eq_singleton (m n : ℕ) (h : m < n) :
    (List.range n).filter (fun k => decide (k = m)) = [m] := by
  induction n with
  | zero => exact absurd h (Nat.not_lt_zero m)
  | succ n ih =>
    rw [List.range_succ, List.filter_append]
    rcases Nat.lt_succ_iff_lt_or_eq.mp h with h1 | h1
    · rw [ih h1]
      have h2 : List.filter (fun k => decide (k = m)) [n] = [] := by
        simp
        omega
      rw [h2]
      simp
    · subst h1
      have h2 : (List.range m).filter (fun k => decide (k = m)) = [] := by
        rw [List.filter_eq_nil_iff]
        intro a ha
        simp only [List.mem_range] at ha
        simp
        omega
      rw [h2]
      simp

/-- Snapping behaviour on a grid whose step is at least `1/100`: the value
`(k - m) * s` snaps to zero exactly when `k = m`. -/
lemma snapZero_grid (s : ℚ) (hs : 1/100 ≤ s) (m k : ℕ) :
    snapZero (((k : ℚ) - (m : ℚ)) * s) = 0 ↔ k = m := by
  by_cases hkm : k = m
  · subst hkm
    simp [snapZero]
  · have h2 : ((k : ℤ) - (m : ℤ)) ≠ 0 := by
      intro h3
      exact hkm (by omega)
    have h1 : (1 : ℚ) ≤ |(k : ℚ) - (m : ℚ)| := by
      exact_mod_cast Int.one_le_abs h2
    have hs0 : (0 : ℚ) < s := lt_of_lt_of_le (by norm_num) hs
    have h5 : 1/100 ≤ |((k : ℚ) - (m : ℚ)) * s| := by
      rw [abs_mul, abs_of_pos hs0]
      calc (1:ℚ)/100 ≤ s := hs
        _ = 1 * s := (one_mul s).symm
        _ ≤ |(k : ℚ) - (m : ℚ)| * s :=
          mul_le_mul_of_nonneg_right h1 (le_of_lt hs0)
    have h6 : snapZero (((k : ℚ) - (m : ℚ)) * s) = ((k : ℚ) - (m : ℚ)) * s := by
      unfold snapZero
      rw [if_neg]
      intro hband
      have h7 : |((k : ℚ) - (m : ℚ)) * s| < 1/100 :=
        abs_lt.mpr ⟨hband.1, hband.2⟩
      linarith
    rw [h6]
    constructor
    · intro h7
      rw [h7] at h5
      norm_num at h5
    · intro h7
      exact absurd h7 hkm

/-- The state grid for a barrier that is `m` steps, as a map over indices. -/
lemma statesOf_multiple (m : ℕ) (s : ℚ) (hs : s ≠ 0) :
    statesOf ((m : ℚ) * s) s =
      (List.range (2 * m + 1)).map
        (fun k : ℕ => snapZero (((k : ℚ) - (m : ℚ)) * s)) := by
  unfold statesOf arange
  have h1 : (((m : ℚ) * s + s) - -((m : ℚ) * s)) / s = ((2 * m + 1 : ℕ) : ℚ) := by
    field_simp
    ring
  rw [h1, Int.ceil_natCast, Int.toNat_natCast, List.map_map]
  apply List.map_congr_left
  intro k _
  simp only [Function.comp_apply]
  congr 1
  ring

/-- Claim C8, amended: for every `stateStep ≥ 1/100` and barrier equal to a
positive whole number `m` of steps (as with the defaults `barrier = 1`,
`stateStep = 0.1`), exactly one grid state equals 0 and the initial belief
vector carries total mass exactly 1. -/
theorem C8_amended (m : ℕ) (s : ℚ) (hm : 0 < m) (hs : 1/100 ≤ s) :
    countZeroStates (statesOf ((m : ℚ) * s) s) = 1 ∧
    (prStatesInit (statesOf ((m : ℚ) * s) s)).sum = 1 := by
  have hs0 : s ≠ 0 := ne_of_gt (lt_of_lt_of_le (by norm_num) hs)
  have hcount : countZeroStates (statesOf ((m : ℚ) * s) s) = 1 := by
    rw [statesOf_multiple m s hs0]
    unfold countZeroStates
    rw [List.filter_map, List.length_map]
    have h2 : ∀ k ∈ List.range (2 * m + 1),
        ((fun x : ℚ => decide (x = 0)) ∘
          (fun k : ℕ => snapZero (((k : ℚ) - (m : ℚ)) * s))) k
        = (fun k : ℕ => decide (k = m)) k := by
      intro k _
      simp only [Function.comp_apply]
      rw [decide_eq_decide]
      exact snapZero_grid s hs m k
    rw [List.filter_congr h2, filter_range_eq_singleton m (2 * m + 1) (by omega)]
    rfl
  refine ⟨hcount, ?_⟩
  rw [prStatesInit_sum, hcount]
  norm_num

/-- Claim C8 witness: the default geometry `barrier = 1 = 10 * 0.1`,
`stateStep = 0.1` has exactly one zero state and initial mass 1. -/
theorem C8_witness :
    countZeroStates (statesOf (((10 : ℕ) : ℚ) * (1/10)) (1/10)) = 1 ∧
    (prStatesInit (statesOf (((10 : ℕ) : ℚ) * (1/10)) (1/10))).sum = 1 :=
  C8_amended 10 (1/10) (by norm_num) (by norm_num)

/-- The state grid for `barrier = 1/50`, `stateStep = 1/200`: the three
states `-1/200, 0, 1/200` all lie strictly inside the snapping band. -/
lemma statesOf_small :
    statesOf (1/50) (1/200) =
      [-(1/50), -(3/200), -(1/100), 0, 0, 0, 1/100, 3/200, 1/50] := by
  unfold statesOf arange
  rw [show ((1:ℚ)/50 + 1/200 - -(1/50)) / (1/200) = 9 by norm_num]
  rw [show (Int.ceil ((9:ℚ))).toNat = 9 by norm_num; rfl]
  simp [List.range_succ, snapZero]
  norm_num

/-- Claim C8 counterexample: with `barrier = 1/50 > 0` and
`stateStep = 1/200 > 0`, the snapping of all states strictly inside
`(-0.01, 0.01)` produces three states equal to 0, and the initial belief
vector has total mass 3, not 1. -/
theorem C8_counterexample :
    (0 : ℚ) < 1/50 ∧ (0 : ℚ) < 1/200 ∧
    countZeroStates (statesOf (1/50) (1/200)) = 3 ∧ (3 : ℕ) ≠ 1 ∧
    (prStatesInit (statesOf (1/50) (1/200))).sum = 3 ∧ (3 : ℚ) ≠ 1 := by
  refine ⟨by norm_num, by norm_num, ?_, by norm_num, ?_, by norm_num⟩
  · rw [statesOf_small]
    norm_num [countZeroStates, List.filter_cons]
  · rw [statesOf_small]
    norm_num [prStatesInit]

/-! ### Conservation of probability mass in the engine (claims C2, C3) -/

/-- A sum of pointwise-nonnegative zipWith terms is nonnegative. -/
lemma zipWith_sum_nonneg (f : ℚ → ℚ → ℚ) :
    ∀ (l1 l2 : List ℚ), (∀ a ∈ l1, ∀ b ∈ l2, 0 ≤ f a b) →
      0 ≤ (List.zipWith f l1 l2).sum
  | [], _, _ => by simp
  | _ :: _, [], _ => by simp
  | a :: t1, b :: t2, h => by
    simp only [List.zipWith_cons_cons, List.sum_cons]
    have h1 : 0 ≤ f a b := h a (by simp) b (by simp)
    have h2 : 0 ≤ (List.zipWith f t1 t2).sum :=
      zipWith_sum_nonneg f t1 t2 (fun x hx y hy =>
        h x (by simp [hx]) y (by simp [hy]))
    linarith

/-- A sum of pointwise-nonnegative zipWith terms with one strictly positive
term is strictly positive. -/
lemma zipWith_sum_pos (f : ℚ → ℚ → ℚ) :
    ∀ (l1 l2 : List ℚ) (i : ℕ) (h1 : i < l1.length) (h2 : i < l2.length),
      (∀ a ∈ l1, ∀ b ∈ l2, 0 ≤ f a b) →
      0 < f (l1.get ⟨i, h1⟩) (l2.get ⟨i, h2⟩) →
      0 < (List.zipWith f l1 l2).sum
  | [], _, i, h1, _, _, _ => absurd h1 (by simp)
  | _ :: _, [], i, _, h2, _, _ => absurd h2 (by simp)
  | a :: t1, b :: t2, 0, h1, h2, h, hpos => by
    simp only [List.zipWith_cons_cons, List.sum_cons]
    simp only [List.get] at hpos
    have h3 : 0 ≤ (List.zipWith f t1 t2).sum :=
      zipWith_sum_nonneg f t1 t2 (fun x hx y hy =>
        h x (by simp [hx]) y (by simp [hy]))
    linarith
  | a :: t1, b :: t2, i + 1, h1, h2, h, hpos => by
    simp only [List.zipWith_cons_cons, List.sum_cons]
    simp only [List.get] at hpos
    have h3 : 0 ≤ f a b := h a (by simp) b (by simp)
    have h4 : 0 < (List.zipWith f t1 t2).sum :=
      zipWith_sum_pos f t1 t2 i (by simpa using h1) (by simpa using h2)
        (fun x hx y hy => h x (by simp [hx]) y (by simp [hy])) hpos
    linarith

/-- A list of nonnegative rationals with positive sum has a positive entry. -/
lemma exists_pos_of_sum_pos :
    ∀ (l : List ℚ), 0 < l.sum →
      ∃ i : ℕ, ∃ h : i < l.length, 0 < l.get ⟨i, h⟩
  | [], h => absurd h (by simp)
  | x :: t, h => by
    by_cases hx : 0 < x
    · exact ⟨0, by simp, hx⟩
    · have h1 : 0 < t.sum := by
        simp only [List.sum_cons] at h
        push_neg at hx
        linarith
      obtain ⟨i, hi, hpos⟩ := exists_pos_of_sum_pos t h1
      exact ⟨i + 1, by simpa using hi, hpos⟩

/-- Scaling every entry of a list sums to the scaled sum (valid also when the
divisor is zero, by the junk-value convention for division). -/
lemma sum_map_mul_div (l : List ℚ) (a b : ℚ) :
    (l.map (fun x => x * a / b)).sum = l.sum * a / b := by
  induction l with
  | nil => simp
  | cons x t ih =>
    simp only [List.map_cons, List.sum_cons, ih]
    rw [div_add_div_same]
    congr 1
    ring

/-- The constant-barrier simplification (`decay = 0`). -/
lemma barrierUpAt_eq (barrier : ℚ) (t : ℕ) : barrierUpAt barrier t = barrier := by
  simp [barrierUpAt, decayConst]

/-- The constant lower barrier. -/
lemma barrierDownAt_eq (barrier : ℚ) (t : ℕ) :
    barrierDownAt barrier t = -barrier := by
  simp [barrierDownAt, decayConst]

/-- One engine step preserves total probability mass exactly and keeps the
belief vector nonnegative with positive sum, whenever the noise kernel has a
strictly positive density and a cumulative distribution strictly between 0
and 1, the state step is positive, and some state lies strictly between the
barriers. -/
lemma engineStep_spec (pdf cdf : ℚ → ℚ → ℚ → ℚ) (states : List ℚ)
    (stateStep std barrier mean : ℚ) (t : ℕ) (ps : List ℚ)
    (hpdf : ∀ x m, 0 < pdf x m std)
    (hcdf0 : ∀ x m, 0 < cdf x m std)
    (hcdf1 : ∀ x m, cdf x m std < 1)
    (hss : 0 < stateStep)
    (hint : ∃ s ∈ states, -barrier < s ∧ s < barrier)
    (hlen : ps.length = states.length)
    (hnn : ∀ x ∈ ps, 0 ≤ x) (hpos : 0 < ps.sum) :
    (∀ x ∈ (engineStep pdf cdf states stateStep std barrier mean t ps).1, 0 ≤ x) ∧
    0 < (engineStep pdf cdf states stateStep std barrier mean t ps).1.sum ∧
    (engineStep pdf cdf states stateStep std barrier mean t ps).1.length = states.length ∧
    0 ≤ (engineStep pdf cdf states stateStep std barrier mean t ps).2.1 ∧
    0 ≤ (engineStep pdf cdf states stateStep std barrier mean t ps).2.2 ∧
    (engineStep pdf cdf states stateStep std barrier mean t ps).1.sum +
      (engineStep pdf cdf states stateStep std barrier mean t ps).2.1 +
      (engineStep pdf cdf states stateStep std barrier mean t ps).2.2 = ps.sum := by
  obtain ⟨i, hi, hientry⟩ := exists_pos_of_sum_pos ps hpos
  have hi2 : i < states.length := hlen ▸ hi
  -- Positivity of the un-renormalized upper-crossing increment.
  have hU : 0 < tempUpCrossOf cdf std mean (barrierUpAt barrier t) states ps := by
    apply zipWith_sum_pos _ ps states i hi hi2
    · intro a ha b _
      have := hcdf1 (barrierUpAt barrier t - b) mean
      have := hnn a ha
      nlinarith
    · have := hcdf1 (barrierUpAt barrier t - states.get ⟨i, hi2⟩) mean
      nlinarith
  -- Nonnegativity of the un-renormalized lower-crossing increment.
  have hD : 0 ≤ tempDownCrossOf cdf std mean (barrierDownAt barrier t) states ps := by
    apply zipWith_sum_nonneg
    intro a ha b _
    have := hcdf0 (barrierDownAt barrier t - b) mean
    have := hnn a ha
    nlinarith
  -- Nonnegativity of the un-renormalized new belief vector.
  have hNnn : ∀ y ∈ prStatesNewOf pdf states stateStep std mean
      (barrierUpAt barrier t) (barrierDownAt barrier t) ps, 0 ≤ y := by
    intro y hy
    obtain ⟨c, _, rfl⟩ := List.mem_map.mp hy
    by_cases hc : barrierDownAt barrier t < c ∧ c < barrierUpAt barrier t
    · rw [if_pos hc]
      apply mul_nonneg (le_of_lt hss)
      apply zipWith_sum_nonneg
      intro a ha b _
      have := hpdf (c - b) mean
      have := hnn a ha
      nlinarith
    · rw [if_neg hc]
  -- Positivity of the sum of the un-renormalized new belief vector.
  have hNpos : 0 < (prStatesNewOf pdf states stateStep std mean
      (barrierUpAt barrier t) (barrierDownAt barrier t) ps).sum := by
    obtain ⟨sstar, hsmem, hsint⟩ := hint
    have hmem : (if barrierDownAt barrier t < sstar ∧ sstar < barrierUpAt barrier t
        then stateStep * (List.zipWith (fun p s0 => p * pdf (sstar - s0) mean std) ps states).sum
        else 0) ∈ prStatesNewOf pdf states stateStep std mean
          (barrierUpAt barrier t) (barrierDownAt barrier t) ps :=
      List.mem_map_of_mem _ hsmem
    have hin : barrierDownAt barrier t < sstar ∧ sstar < barrierUpAt barrier t := by
      rw [barrierUpAt_eq, barrierDownAt_eq]
      exact ⟨hsint.1, hsint.2⟩
    rw [if_pos hin] at hmem
    have hterm : 0 < stateStep *
        (List.zipWith (fun p s0 => p * pdf (sstar - s0) mean std) ps states).sum := by
      apply mul_pos hss
      apply zipWith_sum_pos _ ps states i hi hi2
      · intro a ha b _
        have := hpdf (sstar - b) mean
        have := hnn a ha
        nlinarith
      · have := hpdf (sstar - states.get ⟨i, hi2⟩) mean
        nlinarith
    calc (0:ℚ) < stateStep *
          (List.zipWith (fun p s0 => p * pdf (sstar - s0) mean std) ps states).sum :=
        hterm
      _ ≤ _ := List.single_le_sum hNnn _ hmem
  -- Positivity of the total un-renormalized mass.
  have hSC : 0 < sumCurrentOf pdf cdf states stateStep std mean
      (barrierUpAt barrier t) (barrierDownAt barrier t) ps := by
    unfold sumCurrentOf
    linarith
  have hSCne : sumCurrentOf pdf cdf states stateStep std mean
      (barrierUpAt barrier t) (barrierDownAt barrier t) ps ≠ 0 := ne_of_gt hSC
  constructor
  · intro x hx
    obtain ⟨y, hy, rfl⟩ := List.mem_map.mp hx
    exact div_nonneg (mul_nonneg (hNnn y hy) (le_of_lt hpos)) (le_of_lt hSC)
  refine ⟨?_, ?_, ?_, ?_, ?_⟩
  · show 0 < ((prStatesNewOf pdf states stateStep std mean _ _ ps).map _).sum
    rw [sum_map_mul_div]
    exact div_pos (mul_pos hNpos hpos) hSC
  · show ((prStatesNewOf pdf states stateStep std mean _ _ ps).map _).length = _
    rw [List.length_map]
    exact List.length_map states _
  · exact div_nonneg (mul_nonneg (le_of_lt hU) (le_of_lt hpos)) (le_of_lt hSC)
  · exact div_nonneg (mul_nonneg hD (le_of_lt hpos)) (le_of_lt hSC)
  · simp only [engineStep]
    rw [sum_map_mul_div, div_add_div_same, div_add_div_same, ← add_mul, ← add_mul]
    rw [show (prStatesNewOf pdf states stateStep std mean (barrierUpAt barrier t)
        (barrierDownAt barrier t) ps).sum +
        tempUpCrossOf cdf std mean (barrierUpAt barrier t) states ps +
        tempDownCrossOf cdf std mean (barrierDownAt barrier t) states ps =
        sumCurrentOf pdf cdf states stateStep std mean (barrierUpAt barrier t)
          (barrierDownAt barrier t) ps from rfl]
    rw [mul_comm]
    exact mul_div_cancel_right₀ ps.sum hSCne

/-- Invariants of the propagation loop: the belief vector stays nonnegative
with positive sum and grid length, the total mass (beliefs plus all recorded
increments) is conserved exactly, and every newly recorded increment is
nonnegative. -/
lemma runEngine_spec (pdf cdf : ℚ → ℚ → ℚ → ℚ) (states : List ℚ)
    (stateStep std barrier : ℚ)
    (hpdf : ∀ x m, 0 < pdf x m std)
    (hcdf0 : ∀ x m, 0 < cdf x m std)
    (hcdf1 : ∀ x m, cdf x m std < 1)
    (hss : 0 < stateStep)
    (hint : ∃ s ∈ states, -barrier < s ∧ s < barrier) :
    ∀ (means ps up down : List ℚ), (∀ x ∈ ps, 0 ≤ x) → 0 < ps.sum →
      ps.length = states.length →
      (∀ x ∈ (runEngine pdf cdf states stateStep std barrier means ps up down).1, 0 ≤ x) ∧
      0 < (runEngine pdf cdf states stateStep std barrier means ps up down).1.sum ∧
      (runEngine pdf cdf states stateStep std barrier means ps up down).1.length = states.length ∧
      (runEngine pdf cdf states stateStep std barrier means ps up down).1.sum +
        (runEngine pdf cdf states stateStep std barrier means ps up down).2.1.sum +
        (runEngine pdf cdf states stateStep std barrier means ps up down).2.2.sum
        = ps.sum + up.sum + down.sum ∧
      (∀ x ∈ (runEngine pdf cdf states stateStep std barrier means ps up down).2.1,
        x ∈ up ∨ 0 ≤ x) ∧
      (∀ x ∈ (runEngine pdf cdf states stateStep std barrier means ps up down).2.2,
        x ∈ down ∨ 0 ≤ x)
  | [], ps, up, down, hnn, hpos, hlen => by
    simp only [runEngine]
    exact ⟨hnn, hpos, hlen, by trivial, fun x hx => Or.inl hx, fun x hx => Or.inl hx⟩
  | m :: rest, ps, up, down, hnn, hpos, hlen => by
    obtain ⟨snn, spos, slen, su, sd, ssum⟩ :=
      engineStep_spec pdf cdf states stateStep std barrier m up.length ps
        hpdf hcdf0 hcdf1 hss hint hlen hnn hpos
    obtain ⟨inn, ipos, ilen, isum, iup, idown⟩ :=
      runEngine_spec pdf cdf states stateStep std barrier hpdf hcdf0 hcdf1 hss
        hint rest (engineStep pdf cdf states stateStep std barrier m up.length ps).1
        (up ++ [(engineStep pdf cdf states stateStep std barrier m up.length ps).2.1])
        (down ++ [(engineStep pdf cdf states stateStep std barrier m up.length ps).2.2])
        snn spos slen
    simp only [runEngine]
    refine ⟨inn, ipos, ilen, ?_, ?_, ?_⟩
    · rw [isum]
      simp only [List.sum_append, List.sum_cons, List.sum_nil]
      linarith
    · intro x hx
      rcases iup x hx with hmem | hge
      · rcases List.mem_append.mp hmem with h | h
        · exact Or.inl h
        · right
          rw [List.mem_singleton.mp h]
          exact su
      · exact Or.inr hge
    · intro x hx
      rcases idown x hx with hmem | hge
      · rcases List.mem_append.mp hmem with h | h
        · exact Or.inl h
        · right
          rw [List.mem_singleton.mp h]
          exact sd
      · exact Or.inr hge

/-- The recorded traces of the propagation loop extend their accumulators. -/
lemma runEngine_prefix (pdf cdf : ℚ → ℚ → ℚ → ℚ) (states : List ℚ)
    (stateStep std barrier : ℚ) :
    ∀ (means ps up down : List ℚ), ∃ l1 l2,
      (runEngine pdf cdf states stateStep std barrier means ps up down).2.1 = up ++ l1 ∧
      (runEngine pdf cdf states stateStep std barrier means ps up down).2.2 = down ++ l2
  | [], ps, up, down => ⟨[], [], by simp [runEngine], by simp [runEngine]⟩
  | m :: rest, ps, up, down => by
    obtain ⟨l1, l2, h1, h2⟩ :=
      runEngine_prefix pdf cdf states stateStep std barrier rest
        (engineStep pdf cdf states stateStep std barrier m up.length ps).1
        (up ++ [(engineStep pdf cdf states stateStep std barrier m up.length ps).2.1])
        (down ++ [(engineStep pdf cdf states stateStep std barrier m up.length ps).2.2])
    refine ⟨(engineStep pdf cdf states stateStep std barrier m up.length ps).2.1 :: l1,
      (engineStep pdf cdf states stateStep std barrier m up.length ps).2.2 :: l2, ?_, ?_⟩
    · simp only [runEngine]
      rw [h1]
      simp
    · simp only [runEngine]
      rw [h2]
      simp

/-- Taking the first `up.length + n` recorded upper increments of a full run
recovers the trace of the run on the first `n` means (and symmetrically for
the lower increments): the trace entries recorded at steps `0 .. n-1` do not
depend on the later steps. -/
lemma runEngine_take (pdf cdf : ℚ → ℚ → ℚ → ℚ) (states : List ℚ)
    (stateStep std barrier : ℚ) :
    ∀ (means : List ℚ) (n : ℕ) (ps up down : List ℚ),
      (runEngine pdf cdf states stateStep std barrier means ps up down).2.1.take
          (up.length + n)
        = (runEngine pdf cdf states stateStep std barrier (means.take n) ps up down).2.1 ∧
      (runEngine pdf cdf states stateStep std barrier means ps up down).2.2.take
          (down.length + n)
        = (runEngine pdf cdf states stateStep std barrier (means.take n) ps up down).2.2
  | [], n, ps, up, down => by
    simp only [List.take_nil, runEngine]
    constructor
    · exact List.take_of_length_le (by omega)
    · exact List.take_of_length_le (by omega)
  | m :: rest, 0, ps, up, down => by
    obtain ⟨l1, l2, h1, h2⟩ :=
      runEngine_prefix pdf cdf states stateStep std barrier rest
        (engineStep pdf cdf states stateStep std barrier m up.length ps).1
        (up ++ [(engineStep pdf cdf states stateStep std barrier m up.length ps).2.1])
        (down ++ [(engineStep pdf cdf states stateStep std barrier m up.length ps).2.2])
    simp only [List.take_zero, runEngine, Nat.add_zero]
    rw [h1, h2, List.append_assoc, List.append_assoc]
    constructor
    · rw [List.take_append_of_le_length (le_refl up.length)]
      exact List.take_length up
    · rw [List.take_append_of_le_length (le_refl down.length)]
      exact List.take_length down
  | m :: rest, n + 1, ps, up, down => by
    have ih := runEngine_take pdf cdf states stateStep std barrier rest n
      (engineStep pdf cdf states stateStep std barrier m up.length ps).1
      (up ++ [(engineStep pdf cdf states stateStep std barrier m up.length ps).2.1])
      (down ++ [(engineStep pdf cdf states stateStep std barrier m up.length ps).2.2])
    simp only [runEngine, List.take_succ_cons]
    constructor
    · have hlen1 : (up ++ [(engineStep pdf cdf states stateStep std barrier m
          up.length ps).2.1]).length = up.length + 1 := by simp
      rw [show up.length + (n + 1) = (up ++ [(engineStep pdf cdf states
          stateStep std barrier m up.length ps).2.1]).length + n by rw [hlen1]; omega]
      exact ih.1
    · have hlen2 : (down ++ [(engineStep pdf cdf states stateStep std barrier m
          up.length ps).2.2]).length = down.length + 1 := by simp
      rw [show down.length + (n + 1) = (down ++ [(engineStep pdf cdf states
          stateStep std barrier m up.length ps).2.2]).length + n by rw [hlen2]; omega]
      exact ih.2

/-- Every entry of the initial belief vector is nonnegative. -/
lemma prStatesInit_nonneg (l : List ℚ) : ∀ x ∈ prStatesInit l, 0 ≤ x := by
  intro x hx
  obtain ⟨s, _, rfl⟩ := List.mem_map.mp hx
  split <;> norm_num

/-- The initial belief vector has one entry per state. -/
lemma prStatesInit_length (l : List ℚ) : (prStatesInit l).length = l.length :=
  List.length_map l _

/-- Partial sums of a nonnegative list are monotone in the cut point. -/
lemma sum_take_succ_le :
    ∀ (l : List ℚ), (∀ x ∈ l, 0 ≤ x) → ∀ n : ℕ,
      (l.take n).sum ≤ (l.take (n + 1)).sum
  | [], _, n => by simp
  | x :: tl, h, 0 => by
    simp only [List.take_zero, List.sum_nil, List.take_succ_cons, List.take_zero,
      List.sum_cons, List.sum_nil, add_zero]
    exact h x (by simp)
  | x :: tl, h, n + 1 => by
    simp only [List.take_succ_cons, List.sum_cons]
    have := sum_take_succ_le tl (fun y hy => h y (by simp [hy])) n
    linarith

/-! ### Claim C2 -/

/-- Claim C2: for every trial and parameter set, at every time step `t` the
sum of the interior belief vector (after steps `0 .. t`) plus the cumulative
upper-barrier absorption (sum of the recorded upper increments for steps
`0 .. t`) plus the cumulative lower-barrier absorption equals 1 exactly,
provided the noise kernel has strictly positive density and cumulative values
strictly between 0 and 1 (true of the Gaussian with the resolved positive
noise), the state step is positive, some state lies strictly between the
barriers, and the pinned initial belief vector has total mass 1.  The
renormalization of addm.py lines 164-169 makes this exact in rational
arithmetic. -/
theorem C2_conservation (pdf cdf : ℚ → ℚ → ℚ → ℚ)
    (valueLeft valueRight : ℚ) (fixItem : List ℤ) (fixTime : List ℚ)
    (d theta std mu timeStep stateStep barrier visualDelay motorDelay : ℚ)
    (hpdf : ∀ x m, 0 < pdf x m (resolveStd d std mu))
    (hcdf0 : ∀ x m, 0 < cdf x m (resolveStd d std mu))
    (hcdf1 : ∀ x m, cdf x m (resolveStd d std mu) < 1)
    (hss : 0 < stateStep)
    (hint : ∃ s ∈ statesOf barrier stateStep, -barrier < s ∧ s < barrier)
    (hinit : (prStatesInit (statesOf barrier stateStep)).sum = 1) :
    ∀ t : ℕ,
      (engineRunOn pdf cdf stateStep (resolveStd d std mu) barrier
          ((engineMeans d theta valueLeft valueRight timeStep visualDelay
            motorDelay fixItem fixTime).take (t + 1))).1.sum +
        ((engineRunOn pdf cdf stateStep (resolveStd d std mu) barrier
          (engineMeans d theta valueLeft valueRight timeStep visualDelay
            motorDelay fixItem fixTime)).2.1.take (t + 1)).sum +
        ((engineRunOn pdf cdf stateStep (resolveStd d std mu) barrier
          (engineMeans d theta valueLeft valueRight timeStep visualDelay
            motorDelay fixItem fixTime)).2.2.take (t + 1)).sum = 1 := by
  intro t
  have htake := runEngine_take pdf cdf (statesOf barrier stateStep) stateStep
    (resolveStd d std mu) barrier
    (engineMeans d theta valueLeft valueRight timeStep visualDelay motorDelay
      fixItem fixTime) (t + 1)
    (prStatesInit (statesOf barrier stateStep)) [] []
  simp only [List.length_nil, Nat.zero_add] at htake
  have hspec := runEngine_spec pdf cdf (statesOf barrier stateStep) stateStep
    (resolveStd d std mu) barrier hpdf hcdf0 hcdf1 hss hint
    ((engineMeans d theta valueLeft valueRight timeStep visualDelay motorDelay
      fixItem fixTime).take (t + 1))
    (prStatesInit (statesOf barrier stateStep)) [] []
    (prStatesInit_nonneg _) (by rw [hinit]; norm_num)
    (prStatesInit_length _)
  unfold engineRunOn
  rw [htake.1, htake.2]
  have hsum := hspec.2.2.2.1
  simp only [List.sum_nil, add_zero] at hsum
  rw [hsum, hinit]

/-- Claim C2 witness: conservation at `t = 0` for a concrete trial (one left
fixation of 20 ms, `timeStep = 10`, three-state grid) with a concrete kernel
satisfying the Gaussian hypotheses. -/
theorem C2_witness :
    (engineRunOn (fun _ _ _ => 1) (fun _ _ _ => 1/2) 1 (resolveStd 0 1 0) 1
        ((engineMeans 0 0 0 0 10 0 0 [1] [20]).take (0 + 1))).1.sum +
      ((engineRunOn (fun _ _ _ => 1) (fun _ _ _ => 1/2) 1 (resolveStd 0 1 0) 1
        (engineMeans 0 0 0 0 10 0 0 [1] [20])).2.1.take (0 + 1)).sum +
      ((engineRunOn (fun _ _ _ => 1) (fun _ _ _ => 1/2) 1 (resolveStd 0 1 0) 1
        (engineMeans 0 0 0 0 10 0 0 [1] [20])).2.2.take (0 + 1)).sum = 1 :=
  C2_conservation (fun _ _ _ => 1) (fun _ _ _ => 1/2) 0 0 [1] [20]
    0 0 1 0 10 1 1 0 0
    (fun _ _ => by norm_num) (fun _ _ => by norm_num) (fun _ _ => by norm_num)
    (by norm_num)
    (by
      rw [statesOf_one_one]
      exact ⟨0, by norm_num, by norm_num, by norm_num⟩)
    (by rw [statesOf_one_one, prStatesInit_three]; norm_num)
    0

/-! ### Claim C3 -/

/-- Claim C3 counterexample: the recorded crossing traces are the per-step
increments, not cumulative sums, and they can decrease.  For a trial with a
single 20 ms fixation (two time bins) on the three-state grid, with a kernel
whose cumulative value is the constant `1/2` (strictly between 0 and 1, as for
a Gaussian), the recorded upper trace is `[1/4, 1/8]`, and `1/4 ≤ 1/8` fails;
the same holds for the lower trace. -/
theorem C3_counterexample :
    (engineRunOn (fun _ _ _ => 1) (fun _ _ _ => 1/2) 1 (resolveStd 0 1 0) 1
      (engineMeans 0 0 0 0 10 0 0 [1] [20])).2.1 = [1/4, 1/8] ∧
    (engineRunOn (fun _ _ _ => 1) (fun _ _ _ => 1/2) 1 (resolveStd 0 1 0) 1
      (engineMeans 0 0 0 0 10 0 0 [1] [20])).2.2 = [1/4, 1/8] ∧
    ¬ ((1:ℚ)/4 ≤ 1/8) := by
  refine ⟨?_, ?_, by norm_num⟩ <;>
    norm_num [engineRunOn, engineMeans, resolveStd, correctedFix, correctVisual,
      correctMotor, meansOf, meanOf, binsOf, statesOf_one_one, prStatesInit_three,
      runEngine, engineStep, prStatesNewOf, tempUpCrossOf, tempDownCrossOf,
      sumCurrentOf, barrierUpAt, barrierDownAt, decayConst]

/-- Claim C3, amended: the traces recorded by the engine are per-step
absorption increments; the cumulative absorption probabilities — the partial
sums of the recorded increments — are non-decreasing in `t`, for both
barriers, under the kernel hypotheses that hold for every Gaussian with the
resolved noise. -/
theorem C3_amended (pdf cdf : ℚ → ℚ → ℚ → ℚ)
    (valueLeft valueRight : ℚ) (fixItem : List ℤ) (fixTime : List ℚ)
    (d theta std mu timeStep stateStep barrier visualDelay motorDelay : ℚ)
    (hpdf : ∀ x m, 0 < pdf x m (resolveStd d std mu))
    (hcdf0 : ∀ x m, 0 < cdf x m (resolveStd d std mu))
    (hcdf1 : ∀ x m, cdf x m (resolveStd d std mu) < 1)
    (hss : 0 < stateStep)
    (hint : ∃ s ∈ statesOf barrier stateStep, -barrier < s ∧ s < barrier)
    (hinit : 0 < (prStatesInit (statesOf barrier stateStep)).sum) :
    ∀ t : ℕ,
      ((engineRunOn pdf cdf stateStep (resolveStd d std mu) barrier
        (engineMeans d theta valueLeft valueRight timeStep visualDelay
          motorDelay fixItem fixTime)).2.1.take (t + 1)).sum ≤
      ((engineRunOn pdf cdf stateStep (resolveStd d std mu) barrier
        (engineMeans d theta valueLeft valueRight timeStep visualDelay
          motorDelay fixItem fixTime)).2.1.take (t + 2)).sum ∧
      ((engineRunOn pdf cdf stateStep (resolveStd d std mu) barrier
        (engineMeans d theta valueLeft valueRight timeStep visualDelay
          motorDelay fixItem fixTime)).2.2.take (t + 1)).sum ≤
      ((engineRunOn pdf cdf stateStep (resolveStd d std mu) barrier
        (engineMeans d theta valueLeft valueRight timeStep visualDelay
          motorDelay fixItem fixTime)).2.2.take (t + 2)).sum := by
  intro t
  have hspec := runEngine_spec pdf cdf (statesOf barrier stateStep) stateStep
    (resolveStd d std mu) barrier hpdf hcdf0 hcdf1 hss hint
    (engineMeans d theta valueLeft valueRight timeStep visualDelay motorDelay
      fixItem fixTime)
    (prStatesInit (statesOf barrier stateStep)) [] []
    (prStatesInit_nonneg _) hinit (prStatesInit_length _)
  have hup : ∀ x ∈ (engineRunOn pdf cdf stateStep (resolveStd d std mu) barrier
      (engineMeans d theta valueLeft valueRight timeStep visualDelay motorDelay
        fixItem fixTime)).2.1, 0 ≤ x := by
    intro x hx
    rcases hspec.2.2.2.2.1 x hx with h | h
    · exact absurd h (List.not_mem_nil x)
    · exact h
  have hdown : ∀ x ∈ (engineRunOn pdf cdf stateStep (resolveStd d std mu) barrier
      (engineMeans d theta valueLeft valueRight timeStep visualDelay motorDelay
        fixItem fixTime)).2.2, 0 ≤ x := by
    intro x hx
    rcases hspec.2.2.2.2.2 x hx with h | h
    · exact absurd h (List.not_mem_nil x)
    · exact h
  exact ⟨sum_take_succ_le _ hup (t + 1), sum_take_succ_le _ hdown (t + 1)⟩

/-- Claim C3 witness: monotonicity of the cumulative traces at `t = 0` for
the concrete two-bin trial. -/
theorem C3_witness :
    ((engineRunOn (fun _ _ _ => 1) (fun _ _ _ => 1/2) 1 (resolveStd 0 1 0) 1
      (engineMeans 0 0 0 0 10 0 0 [1] [20])).2.1.take (0 + 1)).sum ≤
    ((engineRunOn (fun _ _ _ => 1) (fun _ _ _ => 1/2) 1 (resolveStd 0 1 0) 1
      (engineMeans 0 0 0 0 10 0 0 [1] [20])).2.1.take (0 + 2)).sum ∧
    ((engineRunOn (fun _ _ _ => 1) (fun _ _ _ => 1/2) 1 (resolveStd 0 1 0) 1
      (engineMeans 0 0 0 0 10 0 0 [1] [20])).2.2.take (0 + 1)).sum ≤
    ((engineRunOn (fun _ _ _ => 1) (fun _ _ _ => 1/2) 1 (resolveStd 0 1 0) 1
      (engineMeans 0 0 0 0 10 0 0 [1] [20])).2.2.take (0 + 2)).sum :=
  C3_amended (fun _ _ _ => 1) (fun _ _ _ => 1/2) 0 0 [1] [20]
    0 0 1 0 10 1 1 0 0
    (fun _ _ => by norm_num) (fun _ _ => by norm_num) (fun _ _ => by norm_num)
    (by norm_num)
    (by
      rw [statesOf_one_one]
      exact ⟨0, by norm_num, by norm_num, by norm_num⟩)
    (by rw [statesOf_one_one, prStatesInit_three]; norm_num)
    0

/-! ### Claim C1 -/

/-- Claim C1 counterexample: for a concrete one-bin trial with observed
choice left (`choice = -1`), `analysis_per_trial` returns `3/8`, which is the
final upper-barrier increment, while the final lower-barrier absorption mass
is `1/8 > 0`; since `3/8 ≠ 1/8`, the function does not return the
lower-barrier mass the claim prescribes for a left choice.  (The kernel used
has constant cumulative value `1/4`, strictly between 0 and 1 as for a
Gaussian.) -/
theorem C1_counterexample :
    analysis_per_trial (fun _ _ _ => 1) (fun _ _ _ => 1/4) 10 (-1) 0 0 [1] [10]
      0 0 1 0 10 1 1 0 0 = 3/8 ∧
    (engineRunOn (fun _ _ _ => 1) (fun _ _ _ => 1/4) 1 (resolveStd 0 1 0) 1
      (engineMeans 0 0 0 0 10 0 0 [1] [10])).2.2.getLastD 0 = 1/8 ∧
    (0:ℚ) < 1/8 ∧ (3:ℚ)/8 ≠ 1/8 := by
  refine ⟨?_, ?_, by norm_num, by norm_num⟩
  · unfold analysis_per_trial
    rw [if_neg (by norm_num)]
    norm_num [resolveStd, correctedFix, correctVisual, correctMotor, maxTimeOf,
      binsOf, meansOf, meanOf, statesOf_one_one, prStatesInit_three, runEngine,
      engineStep, prStatesNewOf, tempUpCrossOf, tempDownCrossOf, sumCurrentOf,
      barrierUpAt, barrierDownAt, decayConst]
  · norm_num [engineRunOn, engineMeans, resolveStd, correctedFix, correctVisual,
      correctMotor, meansOf, meanOf, binsOf, statesOf_one_one, prStatesInit_three,
      runEngine, engineStep, prStatesNewOf, tempUpCrossOf, tempDownCrossOf,
      sumCurrentOf, barrierUpAt, barrierDownAt, decayConst]

/-- Claim C1, amended: for every trial with a resolvable noise parameter and
a positive total bin count, when the observed choice is left (`choice = -1`)
`analysis_per_trial` returns the **upper**-barrier absorption increment
recorded at the final time step if it is strictly positive and 0 otherwise;
when the observed choice is right (`choice = 1`) it returns the
**lower**-barrier increment at the final step if strictly positive, else 0.
(The claim as frozen has the two barriers swapped; the simulator, addm.py
lines 384-387, confirms the code's convention `upper -> choice -1`.) -/
theorem C1_amended (pdf cdf : ℚ → ℚ → ℚ → ℚ) (rt : ℚ) (choice : ℤ)
    (valueLeft valueRight : ℚ) (fixItem : List ℤ) (fixTime : List ℚ)
    (d theta std mu timeStep stateStep barrier visualDelay motorDelay : ℚ)
    (hstd : ¬ (std = 0 ∧ mu = 0))
    (hT : maxTimeOf timeStep
      (correctedFix visualDelay motorDelay fixItem fixTime) ≠ 0) :
    (choice = -1 →
      analysis_per_trial pdf cdf rt choice valueLeft valueRight fixItem fixTime
        d theta std mu timeStep stateStep barrier visualDelay motorDelay =
      (if 0 < (engineRunOn pdf cdf stateStep (resolveStd d std mu) barrier
          (engineMeans d theta valueLeft valueRight timeStep visualDelay
            motorDelay fixItem fixTime)).2.1.getLastD 0
       then (engineRunOn pdf cdf stateStep (resolveStd d std mu) barrier
          (engineMeans d theta valueLeft valueRight timeStep visualDelay
            motorDelay fixItem fixTime)).2.1.getLastD 0
       else 0)) ∧
    (choice = 1 →
      analysis_per_trial pdf cdf rt choice valueLeft valueRight fixItem fixTime
        d theta std mu timeStep stateStep barrier visualDelay motorDelay =
      (if 0 < (engineRunOn pdf cdf stateStep (resolveStd d std mu) barrier
          (engineMeans d theta valueLeft valueRight timeStep visualDelay
            motorDelay fixItem fixTime)).2.2.getLastD 0
       then (engineRunOn pdf cdf stateStep (resolveStd d std mu) barrier
          (engineMeans d theta valueLeft valueRight timeStep visualDelay
            motorDelay fixItem fixTime)).2.2.getLastD 0
       else 0)) := by
  unfold analysis_per_trial
  rw [if_neg hstd]
  simp only [if_neg hT]
  constructor
  · intro h
    subst h
    rw [if_pos rfl]
    rfl
  · intro h
    subst h
    rw [if_neg (by decide), if_pos rfl]
    rfl

/-- Claim C1 witness: the amended statement applied to a concrete one-bin
trial with a left choice. -/
theorem C1_witness :
    ((-1 : ℤ) = -1 →
      analysis_per_trial (fun _ _ _ => 1) (fun _ _ _ => 1/4) 10 (-1) 0 0
        [1] [10] 0 0 1 0 10 1 1 0 0 =
      (if 0 < (engineRunOn (fun _ _ _ => 1) (fun _ _ _ => 1/4) 1
          (resolveStd 0 1 0) 1 (engineMeans 0 0 0 0 10 0 0 [1] [10])).2.1.getLastD 0
       then (engineRunOn (fun _ _ _ => 1) (fun _ _ _ => 1/4) 1
          (resolveStd 0 1 0) 1 (engineMeans 0 0 0 0 10 0 0 [1] [10])).2.1.getLastD 0
       else 0)) ∧
    ((-1 : ℤ) = 1 →
      analysis_per_trial (fun _ _ _ => 1) (fun _ _ _ => 1/4) 10 (-1) 0 0
        [1] [10] 0 0 1 0 10 1 1 0 0 =
      (if 0 < (engineRunOn (fun _ _ _ => 1) (fun _ _ _ => 1/4) 1
          (resolveStd 0 1 0) 1 (engineMeans 0 0 0 0 10 0 0 [1] [10])).2.2.getLastD 0
       then (engineRunOn (fun _ _ _ => 1) (fun _ _ _ => 1/4) 1
          (resolveStd 0 1 0) 1 (engineMeans 0 0 0 0 10 0 0 [1] [10])).2.2.getLastD 0
       else 0)) :=
  C1_amended (fun _ _ _ => 1) (fun _ _ _ => 1/4) 10 (-1) 0 0 [1] [10]
    0 0 1 0 10 1 1 0 0 (by norm_num)
    (by norm_num [maxTimeOf, correctedFix, correctVisual, correctMotor, binsOf])

/-! ### Claims C6 and C9: the distribution corrector -/

/-- The code's divisor is one minus the claim's last-fixation probability. -/
lemma probNotLastFix_eq (cl ct : ℕ) :
    probNotLastFix cl ct = 1 - probLastFix cl ct := by
  unfold probNotLastFix probLastFix
  split <;> ring

/-- The divisor lies in `[0, 1]` whenever the last-fixation count does not
exceed the total count. -/
lemma probNotLastFix_mem (cl ct : ℕ) (hle : cl ≤ ct) :
    0 ≤ probNotLastFix cl ct ∧ probNotLastFix cl ct ≤ 1 := by
  unfold probNotLastFix
  by_cases hct : 0 < ct
  · rw [if_pos hct]
    have h1 : (0:ℚ) ≤ (cl : ℚ) / (ct : ℚ) :=
      div_nonneg (by positivity) (by positivity)
    have h2 : (cl : ℚ) / (ct : ℚ) ≤ 1 := by
      rw [div_le_one (by exact_mod_cast hct)]
      exact_mod_cast hle
    constructor <;> linarith
  · rw [if_neg hct]
    norm_num

/-- The pre-renormalization correction never decreases a nonnegative cell
value, as the divisor lies in `[0, 1]`. -/
lemma trueFixDistPre_ge (emp : ℚ) (cl ct : ℕ) (hemp : 0 ≤ emp)
    (hle : cl ≤ ct) : emp ≤ trueFixDistPre emp cl ct := by
  unfold trueFixDistPre
  obtain ⟨hp0, hp1⟩ := probNotLastFix_mem cl ct hle
  by_cases hz : probNotLastFix cl ct = 0
  · rw [if_pos hz]
  · rw [if_neg hz]
    have hppos : 0 < probNotLastFix cl ct := lt_of_le_of_ne hp0 (Ne.symm hz)
    rw [le_div_iff₀ hppos]
    exact mul_le_of_le_one_right hemp hp1

/-- Dividing every mapped entry by a constant divides the sum (valid also for
a zero divisor, by the junk-value convention). -/
lemma sum_map_div (l : List ℚ) (g : ℚ → ℚ) (a : ℚ) :
    (l.map (fun b => g b / a)).sum = (l.map g).sum / a := by
  induction l with
  | nil => simp
  | cons x t ih =>
    simp only [List.map_cons, List.sum_cons, ih]
    rw [div_add_div_same]

/-- Claim C6: one corrector iteration maps each cell with
`probLastFix < 1` to `empirical / (1 - probLastFix)` (where `probLastFix` is
`countLastFix / countTotal`, taken as 0 when `countTotal = 0`), leaves cells
with `probLastFix = 1` unchanged, leaves cells with `probLastFix = 0` equal
to the input before renormalization, and the final renormalization makes each
(fixation-index, value-difference) distribution sum to 1 across bins
(whenever the input distribution has any positive bin, so the sum guard of
lines 391-392 is passed). -/
theorem C6_corrector (bins : List ℚ) (emp : ℚ → ℚ) (cl ct : ℚ → ℕ)
    (hemp : ∀ b, 0 ≤ emp b) (hle : ∀ b, cl b ≤ ct b) :
    (∀ b, (probLastFix (cl b) (ct b) < 1 →
        trueFixDistPre (emp b) (cl b) (ct b)
          = emp b / (1 - probLastFix (cl b) (ct b))) ∧
      (probLastFix (cl b) (ct b) = 1 →
        trueFixDistPre (emp b) (cl b) (ct b) = emp b) ∧
      (probLastFix (cl b) (ct b) = 0 →
        trueFixDistPre (emp b) (cl b) (ct b) = emp b)) ∧
    ((∃ b ∈ bins, 0 < emp b) →
      (bins.map (normalizeDist bins
        (fun b => trueFixDistPre (emp b) (cl b) (ct b)))).sum = 1) := by
  constructor
  · intro b
    refine ⟨?_, ?_, ?_⟩
    · intro h
      have hne : probNotLastFix (cl b) (ct b) ≠ 0 := by
        rw [probNotLastFix_eq]
        intro h2
        rw [sub_eq_zero] at h2
        exact absurd h2.symm (ne_of_lt h)
      unfold trueFixDistPre
      rw [if_neg hne, probNotLastFix_eq]
    · intro h
      unfold trueFixDistPre
      rw [if_pos (by rw [probNotLastFix_eq, h]; ring)]
    · intro h
      unfold trueFixDistPre
      rw [if_neg (by rw [probNotLastFix_eq, h]; norm_num)]
      rw [probNotLastFix_eq, h]
      norm_num
  · rintro ⟨b0, hb0, hpos⟩
    have hnn : ∀ y ∈ bins.map (fun b => trueFixDistPre (emp b) (cl b) (ct b)),
        0 ≤ y := by
      intro y hy
      obtain ⟨b, _, rfl⟩ := List.mem_map.mp hy
      exact le_trans (hemp b) (trueFixDistPre_ge (emp b) (cl b) (ct b)
        (hemp b) (hle b))
    have hS : 0 < (bins.map (fun b => trueFixDistPre (emp b) (cl b) (ct b))).sum := by
      calc (0:ℚ) < emp b0 := hpos
        _ ≤ trueFixDistPre (emp b0) (cl b0) (ct b0) :=
          trueFixDistPre_ge (emp b0) (cl b0) (ct b0) (hemp b0) (hle b0)
        _ ≤ _ := List.single_le_sum hnn _ (List.mem_map_of_mem _ hb0)
    unfold normalizeDist
    rw [if_pos hS, sum_map_div]
    exact div_self (ne_of_gt hS)

/-- Claim C6 witness: a concrete two-bin distribution with counts `1` of `2`
in every cell is corrected and renormalized to a unit-mass distribution. -/
theorem C6_witness :
    (∀ b : ℚ, (probLastFix 1 2 < 1 →
        trueFixDistPre ((1:ℚ)/2) 1 2 = (1:ℚ)/2 / (1 - probLastFix 1 2)) ∧
      (probLastFix 1 2 = 1 → trueFixDistPre ((1:ℚ)/2) 1 2 = 1/2) ∧
      (probLastFix 1 2 = 0 → trueFixDistPre ((1:ℚ)/2) 1 2 = 1/2)) ∧
    ((∃ b ∈ [(10:ℚ), 20], 0 < (1:ℚ)/2) →
      ([(10:ℚ), 20].map (normalizeDist [(10:ℚ), 20]
        (fun _ => trueFixDistPre ((1:ℚ)/2) 1 2))).sum = 1) :=
  C6_corrector [(10:ℚ), 20] (fun _ => (1:ℚ)/2) (fun _ => 1) (fun _ => 2)
    (fun _ => by norm_num) (fun _ => by norm_num)

/-- Claim C9: over any simulated corpus, in every cell the last-fixation
count is at most the total count (the counting loop increments the total
count alongside every last-fixation count), so the corrected distribution is,
before renormalization, pointwise at least the input distribution. -/
theorem C9_inflation (numFixDists : ℕ) (binStep : ℚ) (numBins : ℕ)
    (trials : List TrialRec) (emp : Cell → ℚ) (hemp : ∀ c, 0 ≤ emp c) :
    ∀ cell : Cell,
      countLastFixCells numFixDists binStep numBins trials cell ≤
        countTotalCells numFixDists binStep numBins trials cell ∧
      emp cell ≤ trueFixDistPre (emp cell)
        (countLastFixCells numFixDists binStep numBins trials cell)
        (countTotalCells numFixDists binStep numBins trials cell) := by
  intro cell
  have hle : countLastFixCells numFixDists binStep numBins trials cell ≤
      countTotalCells numFixDists binStep numBins trials cell := by
    unfold countLastFixCells countTotalCells
    apply List.sum_le_sum
    intro tr _
    exact Nat.le_add_left _ _
  exact ⟨hle, trueFixDistPre_ge _ _ _ (hemp cell) hle⟩

/-- Claim C9 witness: the inequality at a concrete one-trial corpus and a
concrete cell. -/
theorem C9_witness :
    countLastFixCells 3 10 300
        [{ rt := 10, choice := -1, valueLeft := 1, valueRight := 0,
           fixItem := [0, 1], fixTime := [0, 10], fixRDV := [0, 2],
           uninterruptedLastFixTime := 15 }] (1, 1, 20) ≤
      countTotalCells 3 10 300
        [{ rt := 10, choice := -1, valueLeft := 1, valueRight := 0,
           fixItem := [0, 1], fixTime := [0, 10], fixRDV := [0, 2],
           uninterruptedLastFixTime := 15 }] (1, 1, 20) ∧
    (1:ℚ) ≤ trueFixDistPre 1
        (countLastFixCells 3 10 300
          [{ rt := 10, choice := -1, valueLeft := 1, valueRight := 0,
             fixItem := [0, 1], fixTime := [0, 10], fixRDV := [0, 2],
             uninterruptedLastFixTime := 15 }] (1, 1, 20))
        (countTotalCells 3 10 300
          [{ rt := 10, choice := -1, valueLeft := 1, valueRight := 0,
             fixItem := [0, 1], fixTime := [0, 10], fixRDV := [0, 2],
             uninterruptedLastFixTime := 15 }] (1, 1, 20)) :=
  C9_inflation 3 10 300
    [{ rt := 10, choice := -1, valueLeft := 1, valueRight := 0,
       fixItem := [0, 1], fixTime := [0, 10], fixRDV := [0, 2],
       uninterruptedLastFixTime := 15 }] (fun _ => 1) (fun _ => by norm_num)
    (1, 1, 20)

/-! ### Claims C4 and C10: the stochastic trial simulator -/

/-- When a diffusion walk reports a crossing, the final RDV is at or beyond a
barrier and at least one bin was consumed; without a crossing the bin count
is exactly the requested one. -/
lemma diffuse_spec (std barrier mean : ℚ) :
    ∀ (n : ℕ) (rdv : ℚ) (rng : Rng),
      ((diffuse std barrier mean n rdv rng).2.2.1 = true →
        (barrier ≤ (diffuse std barrier mean n rdv rng).1 ∨
          (diffuse std barrier mean n rdv rng).1 ≤ -barrier) ∧
        1 ≤ (diffuse std barrier mean n rdv rng).2.2.2) ∧
      ((diffuse std barrier mean n rdv rng).2.2.1 = false →
        (diffuse std barrier mean n rdv rng).2.2.2 = n)
  | 0, rdv, rng => by
    simp [diffuse]
  | n + 1, rdv, rng => by
    simp only [diffuse]
    split
    · exact ⟨fun _ => ⟨by assumption, le_refl 1⟩, fun h => by simp at h⟩
    · have ih := diffuse_spec std barrier mean n
        (rdv + (mean + std * (rngNext rng).1)) (rngNext rng).2
      constructor
      · intro h
        have h1 : (diffuse std barrier mean n
            (rdv + (mean + std * (rngNext rng).1)) (rngNext rng).2).2.2.1 = true := h
        refine ⟨(ih.1 h1).1, ?_⟩
        show 1 ≤ (diffuse std barrier mean n
          (rdv + (mean + std * (rngNext rng).1)) (rngNext rng).2).2.2.2 + 1
        have := (ih.1 h1).2
        omega
      · intro h
        have h1 : (diffuse std barrier mean n
            (rdv + (mean + std * (rngNext rng).1)) (rngNext rng).2).2.2.1 = false := h
        show (diffuse std barrier mean n
          (rdv + (mean + std * (rngNext rng).1)) (rngNext rng).2).2.2.2 + 1 = n + 1
        rw [ih.2 h1]

/-- A sampled value is an element of the sampled array, or the array is empty
and the sample is the default 0. -/
lemma choiceFrom_spec (l : List ℚ) (rng : Rng) :
    (choiceFrom l rng).1 ∈ l ∨ ((choiceFrom l rng).1 = 0 ∧ l = []) := by
  unfold choiceFrom
  rcases l with _ | ⟨x, xs⟩
  · right
    exact ⟨by simp, rfl⟩
  · left
    have hlt : (Int.floor (rngNext rng).1).toNat % (x :: xs).length
        < (x :: xs).length := Nat.mod_lt _ (by simp)
    show (x :: xs).getD ((Int.floor (rngNext rng).1).toNat % (x :: xs).length) 0
      ∈ x :: xs
    rw [List.getD_eq_getElem _ _ hlt]
    exact List.getElem_mem hlt

/-- A sample from a nonempty array is an element of it. -/
lemma choiceFrom_mem (l : List ℚ) (rng : Rng) (h : l ≠ []) :
    (choiceFrom l rng).1 ∈ l := by
  rcases choiceFrom_spec l rng with h1 | ⟨_, h2⟩
  · exact h1
  · exact absurd h2 h

/-- The whole-bin floor of a duration is the time step times the bin count. -/
lemma binFloor_eq (ts t : ℚ) : binFloor ts t = ts * ((binsOf ts t : ℤ) : ℚ) := by
  unfold binFloor pymod binsOf
  ring

/-- The whole-bin floor of a nonnegative duration is nonnegative for a
positive time step. -/
lemma binFloor_nonneg (ts t : ℚ) (hts : 0 < ts) (ht : 0 ≤ t) :
    0 ≤ binFloor ts t := by
  rw [binFloor_eq]
  apply mul_nonneg (le_of_lt hts)
  have h1 : (0:ℤ) ≤ binsOf ts t := by
    unfold binsOf
    exact Int.floor_nonneg.mpr (div_nonneg ht (le_of_lt hts))
  exact_mod_cast h1

/-- The last element of a list extended by one entry. -/
lemma getLastD_concat (l : List ℚ) (a d : ℚ) : (l ++ [a]).getLastD d = a := by
  rcases l with _ | ⟨x, xs⟩
  · rfl
  · rw [List.getLastD_eq_getLast?, List.getLast?_concat]
    rfl

/-- The last element of an integer list extended by one entry. -/
lemma getLastD_concat_int (l : List ℤ) (a d : ℤ) : (l ++ [a]).getLastD d = a := by
  rcases l with _ | ⟨x, xs⟩
  · rfl
  · rw [List.getLastD_eq_getLast?, List.getLast?_concat]
    rfl

/-- Validity of a record written at a barrier crossing: defined choice
matching the crossed barrier, item-fixation ending, positive reaction time,
and reaction time equal to the sum of the recorded fixation durations. -/
lemma crossRec_valid (barrier vLeft vRight : ℚ) (currFixItem : ℤ)
    (accI : List ℤ) (accT accR : List ℚ)
    (trialTime entry rdvFinal uninterrupted : ℚ)
    (hbar : 0 < barrier)
    (hitem : currFixItem = 1 ∨ currFixItem = 2)
    (hTT : 0 ≤ trialTime) (hsum : trialTime = accT.sum)
    (hentry : 0 < entry)
    (hcross : barrier ≤ rdvFinal ∨ rdvFinal ≤ -barrier) :
    let cr := crossRec barrier vLeft vRight currFixItem accI accT accR
      trialTime entry rdvFinal uninterrupted
    (cr.choice = -1 ∨ cr.choice = 1) ∧
    (barrier ≤ cr.fixRDV.getLastD 0 ∨ cr.fixRDV.getLastD 0 ≤ -barrier) ∧
    (barrier ≤ cr.fixRDV.getLastD 0 → cr.choice = -1) ∧
    (cr.fixRDV.getLastD 0 ≤ -barrier → cr.choice = 1) ∧
    (cr.fixItem.getLastD 0 = 1 ∨ cr.fixItem.getLastD 0 = 2) ∧
    0 < cr.rt ∧ cr.rt = cr.fixTime.sum := by
  intro cr
  have hlastR : cr.fixRDV.getLastD 0 = rdvFinal := getLastD_concat accR rdvFinal 0
  have hlastI : cr.fixItem.getLastD 0 = currFixItem :=
    getLastD_concat_int accI currFixItem 0
  refine ⟨?_, ?_, ?_, ?_, ?_, ?_, ?_⟩
  · show (if barrier ≤ rdvFinal then (-1:ℤ) else 1) = -1 ∨
      (if barrier ≤ rdvFinal then (-1:ℤ) else 1) = 1
    split
    · exact Or.inl rfl
    · exact Or.inr rfl
  · rw [hlastR]
    exact hcross
  · rw [hlastR]
    intro h
    show (if barrier ≤ rdvFinal then (-1:ℤ) else 1) = -1
    rw [if_pos h]
  · rw [hlastR]
    intro h
    show (if barrier ≤ rdvFinal then (-1:ℤ) else 1) = 1
    rw [if_neg]
    intro h2
    linarith
  · rw [hlastI]
    exact hitem
  · show 0 < trialTime + entry
    linarith
  · show trialTime + entry = (accT ++ [entry]).sum
    rw [List.sum_append, List.sum_cons, List.sum_nil, hsum]
    ring

/-- Every completed outcome of the fixation loop satisfies the trial-record
invariants: a defined choice matching the crossed barrier, an item-fixation
ending, a positive reaction time, and a reaction time equal to the sum of the
recorded fixation durations. -/
lemma fixLoop_completed (P : SimParams) (std vLeft vRight : ℚ)
    (hts : 0 < P.timeStep) (hbar : 0 < P.barrier) (hvd : 0 ≤ P.visualDelay)
    (hmd : 0 ≤ P.motorDelay)
    (htrans : ∀ x ∈ P.distTransitions, 0 ≤ x)
    (hfix : ∀ n v, P.distFix n v ≠ [] ∧ ∀ x ∈ P.distFix n v, P.visualDelay ≤ x) :
    ∀ (fuel : ℕ) (rdv trialTime currFixTime : ℚ) (currFixItem : ℤ)
      (fixNumber : ℕ) (accI : List ℤ) (accT accR : List ℚ) (rng : Rng)
      (tr : TrialRec) (rng1 : Rng),
      fixLoop P std vLeft vRight fuel rdv trialTime currFixTime currFixItem
        fixNumber accI accT accR rng = some (.completed tr rng1) →
      (currFixItem = 1 ∨ currFixItem = 2) →
      0 ≤ trialTime → trialTime = accT.sum → 0 ≤ currFixTime →
      (tr.choice = -1 ∨ tr.choice = 1) ∧
      (P.barrier ≤ tr.fixRDV.getLastD 0 ∨ tr.fixRDV.getLastD 0 ≤ -P.barrier) ∧
      (P.barrier ≤ tr.fixRDV.getLastD 0 → tr.choice = -1) ∧
      (tr.fixRDV.getLastD 0 ≤ -P.barrier → tr.choice = 1) ∧
      (tr.fixItem.getLastD 0 = 1 ∨ tr.fixItem.getLastD 0 = 2) ∧
      0 < tr.rt ∧ tr.rt = tr.fixTime.sum
  | 0, rdv, trialTime, currFixTime, currFixItem, fixNumber, accI, accT, accR,
    rng, tr, rng1 => by
    intro h
    simp [fixLoop] at h
  | fuel + 1, rdv, trialTime, currFixTime, currFixItem, fixNumber, accI, accT,
    accR, rng, tr, rng1 => by
    intro h hitem hTT hsum hcft
    simp only [fixLoop] at h
    set wv := diffuse std P.barrier 0 (binsOf P.timeStep P.visualDelay).toNat
      rdv rng with hwv
    split at h
    · -- Crossing during the visual delay.
      rename_i h1
      injection h with h2
      injection h2 with h3 h4
      subst h3
      rw [hwv] at h1
      have hd := (diffuse_spec std P.barrier 0
        (binsOf P.timeStep P.visualDelay).toNat rdv rng).1 h1
      rw [← hwv] at hd
      have hentry : 0 < (wv.2.2.2 : ℚ) * P.timeStep + P.motorDelay := by
        have hk : (1 : ℚ) ≤ (wv.2.2.2 : ℚ) := by exact_mod_cast hd.2
        nlinarith
      exact crossRec_valid P.barrier vLeft vRight currFixItem accI accT accR
        trialTime ((wv.2.2.2 : ℚ) * P.timeStep + P.motorDelay) wv.1 currFixTime
        hbar hitem hTT hsum hentry hd.1
    · -- No crossing during the visual delay.
      rename_i h1
      set mean := if currFixItem = 1 then P.d * (vLeft - P.theta * vRight)
        else P.d * (-vRight + P.theta * vLeft) with hmean
      set wf := diffuse std P.barrier mean
        (binsOf P.timeStep currFixTime).toNat wv.1 wv.2.1 with hwf
      split at h
      · -- Crossing during the fixation interval.
        rename_i h2
        injection h with h3
        injection h3 with h4 h5
        subst h4
        rw [hwf] at h2
        have hd := (diffuse_spec std P.barrier mean
          (binsOf P.timeStep currFixTime).toNat wv.1 wv.2.1).1 h2
        rw [← hwf] at hd
        have hentry : 0 < (wf.2.2.2 : ℚ) * P.timeStep + P.visualDelay
            + P.motorDelay := by
          have hk : (1 : ℚ) ≤ (wf.2.2.2 : ℚ) := by exact_mod_cast hd.2
          nlinarith
        exact crossRec_valid P.barrier vLeft vRight currFixItem accI accT accR
          trialTime ((wf.2.2.2 : ℚ) * P.timeStep + P.visualDelay + P.motorDelay)
          wf.1 currFixTime hbar hitem hTT hsum hentry hd.1
      · -- The fixation completed; transition period.
        rename_i h2
        set ct := choiceFrom P.distTransitions wf.2.1 with hct
        set wt := diffuse std P.barrier 0 (binsOf P.timeStep ct.1).toNat
          wf.1 ct.2 with hwt
        split at h
        · -- Crossing during the transition: the attempt aborts.
          simp at h
        · -- Recurse on the next fixation.
          rename_i h3
          set nextItem : ℤ := if currFixItem = 1 then 2
            else if currFixItem = 2 then 1 else currFixItem with hni
          set valueDiff := if nextItem = 1 then vLeft - vRight
            else vRight - vLeft with hvdiff
          set cf := choiceFrom (P.distFix fixNumber valueDiff) wt.2.1 with hcf
          have hct1 : 0 ≤ ct.1 := by
            rcases choiceFrom_spec P.distTransitions wf.2.1 with hm | ⟨h0, _⟩
            · rw [hct]
              exact htrans _ hm
            · rw [hct, h0]
          have hitem2 : nextItem = 1 ∨ nextItem = 2 := by
            rw [hni]
            rcases hitem with rfl | rfl
            · right
              norm_num
            · left
              norm_num
          have hTT2 : 0 ≤ trialTime + (binFloor P.timeStep currFixTime
              + P.visualDelay) + binFloor P.timeStep ct.1 := by
            have hb1 : 0 ≤ binFloor P.timeStep currFixTime :=
              binFloor_nonneg _ _ hts hcft
            have hb2 : 0 ≤ binFloor P.timeStep ct.1 :=
              binFloor_nonneg _ _ hts hct1
            linarith
          have hsum2 : trialTime + (binFloor P.timeStep currFixTime
              + P.visualDelay) + binFloor P.timeStep ct.1
              = ((accT ++ [binFloor P.timeStep currFixTime + P.visualDelay])
                  ++ [binFloor P.timeStep ct.1]).sum := by
            simp [List.sum_append, hsum]
            ring
          have hcf1 : 0 ≤ cf.1 - P.visualDelay := by
            have hmem : cf.1 ∈ P.distFix fixNumber valueDiff := by
              rw [hcf]
              exact choiceFrom_mem _ _ (hfix fixNumber valueDiff).1
            have := (hfix fixNumber valueDiff).2 cf.1 hmem
            linarith
          exact fixLoop_completed P std vLeft vRight hts hbar hvd hmd htrans hfix
            fuel wt.1 _ (cf.1 - P.visualDelay) nextItem
            (if fixNumber < P.numFixDists then fixNumber + 1 else fixNumber)
            ((accI ++ [currFixItem]) ++ [0])
            ((accT ++ [binFloor P.timeStep currFixTime + P.visualDelay])
              ++ [binFloor P.timeStep ct.1])
            ((accR ++ [wf.1]) ++ [wt.1]) cf.2 tr rng1 h hitem2 hTT2 hsum2 hcf1

/-- A successful latency phase returns a latency drawn from the latency
distribution (or the default 0 on an empty distribution). -/
lemma latencyPhase_some (P : SimParams) (std : ℚ) :
    ∀ (fuel : ℕ) (rng : Rng) (res : ℚ × ℚ × Rng),
      latencyPhase P std fuel rng = some res →
      res.2.1 ∈ P.distLatencies ∨ res.2.1 = 0
  | 0, rng, res => by
    intro h
    simp [latencyPhase] at h
  | fuel + 1, rng, res => by
    intro h
    simp only [latencyPhase] at h
    split at h
    · exact latencyPhase_some P std fuel _ res h
    · injection h with h2
      rcases choiceFrom_spec P.distLatencies rng with hm | ⟨h0, _⟩
      · left
        rw [← h2]
        exact hm
      · right
        rw [← h2]
        exact h0

/-- Every completed trial attempt satisfies the trial-record invariants. -/
lemma trialAttempt_completed (P : SimParams) (std vLeft vRight : ℚ)
    (hts : 0 < P.timeStep) (hbar : 0 < P.barrier) (hvd : 0 ≤ P.visualDelay)
    (hmd : 0 ≤ P.motorDelay)
    (hlat : ∀ x ∈ P.distLatencies, 0 ≤ x)
    (htrans : ∀ x ∈ P.distTransitions, 0 ≤ x)
    (hfix : ∀ n v, P.distFix n v ≠ [] ∧ ∀ x ∈ P.distFix n v, P.visualDelay ≤ x)
    (fuel : ℕ) (rng : Rng) (tr : TrialRec) (rng1 : Rng)
    (h : trialAttempt P std vLeft vRight fuel rng = some (.completed tr rng1)) :
    (tr.choice = -1 ∨ tr.choice = 1) ∧
    (P.barrier ≤ tr.fixRDV.getLastD 0 ∨ tr.fixRDV.getLastD 0 ≤ -P.barrier) ∧
    (P.barrier ≤ tr.fixRDV.getLastD 0 → tr.choice = -1) ∧
    (tr.fixRDV.getLastD 0 ≤ -P.barrier → tr.choice = 1) ∧
    (tr.fixItem.getLastD 0 = 1 ∨ tr.fixItem.getLastD 0 = 2) ∧
    0 < tr.rt ∧ tr.rt = tr.fixTime.sum := by
  unfold trialAttempt at h
  split at h
  · simp at h
  · rename_i lp hlp
    have hlat0 : 0 ≤ lp.2.1 := by
      rcases latencyPhase_some P std fuel rng lp hlp with hm | h0
      · exact hlat _ hm
      · rw [h0]
    set fi : ℤ := if (rngNext lp.2.2).1 < P.probLeftFixFirst then 1 else 2
      with hfi
    set vdiff := if fi = 1 then vLeft - vRight else vRight - vLeft with hvdiff
    set cf := choiceFrom (P.distFix 1 vdiff) (rngNext lp.2.2).2 with hcf
    have hitem : fi = 1 ∨ fi = 2 := by
      rw [hfi]
      split
      · exact Or.inl rfl
      · exact Or.inr rfl
    have hTT : 0 ≤ binFloor P.timeStep lp.2.1 :=
      binFloor_nonneg _ _ hts hlat0
    have hsum : binFloor P.timeStep lp.2.1
        = [binFloor P.timeStep lp.2.1].sum := by simp
    have hcft : 0 ≤ cf.1 - P.visualDelay := by
      have hmem : cf.1 ∈ P.distFix 1 vdiff := by
        rw [hcf]
        exact choiceFrom_mem _ _ (hfix 1 vdiff).1
      have := (hfix 1 vdiff).2 cf.1 hmem
      linarith
    exact fixLoop_completed P std vLeft vRight hts hbar hvd hmd htrans hfix
      fuel lp.1 (binFloor P.timeStep lp.2.1) (cf.1 - P.visualDelay) fi 2
      [0] [binFloor P.timeStep lp.2.1] [lp.1] cf.2 tr rng1 h hitem hTT hsum hcft

/-- The per-condition loop collects exactly `remaining` more completed
trials, all of which satisfy the trial-record invariants; aborted attempts
contribute nothing. -/
lemma condLoop_spec (P : SimParams) (std vLeft vRight : ℚ)
    (hts : 0 < P.timeStep) (hbar : 0 < P.barrier) (hvd : 0 ≤ P.visualDelay)
    (hmd : 0 ≤ P.motorDelay)
    (hlat : ∀ x ∈ P.distLatencies, 0 ≤ x)
    (htrans : ∀ x ∈ P.distTransitions, 0 ≤ x)
    (hfix : ∀ n v, P.distFix n v ≠ [] ∧ ∀ x ∈ P.distFix n v, P.visualDelay ≤ x) :
    ∀ (remaining fuel : ℕ) (rng : Rng) (acc : List TrialRec)
      (res : List TrialRec × Rng),
      condLoop P std vLeft vRight remaining fuel rng acc = some res →
      res.1.length = acc.length + remaining ∧
      ∀ tr ∈ res.1, tr ∈ acc ∨
        ((tr.choice = -1 ∨ tr.choice = 1) ∧
        (P.barrier ≤ tr.fixRDV.getLastD 0 ∨ tr.fixRDV.getLastD 0 ≤ -P.barrier) ∧
        (P.barrier ≤ tr.fixRDV.getLastD 0 → tr.choice = -1) ∧
        (tr.fixRDV.getLastD 0 ≤ -P.barrier → tr.choice = 1) ∧
        (tr.fixItem.getLastD 0 = 1 ∨ tr.fixItem.getLastD 0 = 2) ∧
        0 < tr.rt ∧ tr.rt = tr.fixTime.sum)
  | 0, fuel, rng, acc, res => by
    intro h
    simp only [condLoop] at h
    injection h with h2
    rw [← h2]
    exact ⟨by simp, fun tr htr => Or.inl htr⟩
  | remaining + 1, 0, rng, acc, res => by
    intro h
    simp [condLoop] at h
  | remaining + 1, fuel + 1, rng, acc, res => by
    intro h
    simp only [condLoop] at h
    split at h
    · simp at h
    · rename_i rec0 rng2 hta
      obtain ⟨hlen, hmem⟩ := condLoop_spec P std vLeft vRight hts hbar hvd hmd
        hlat htrans hfix remaining fuel rng2 (acc ++ [rec0]) res h
      have hrec0 := trialAttempt_completed P std vLeft vRight hts hbar hvd hmd
        hlat htrans hfix (fuel + 1) rng rec0 rng2 hta
      constructor
      · rw [hlen]
        simp
        omega
      · intro tr htr
        rcases hmem tr htr with hmem2 | hprop
        · rcases List.mem_append.mp hmem2 with h1 | h1
          · exact Or.inl h1
          · right
            rw [List.mem_singleton.mp h1]
            exact hrec0
        · exact Or.inr hprop
    · rename_i rng2 hta
      exact condLoop_spec P std vLeft vRight hts hbar hvd hmd hlat htrans hfix
        (remaining + 1) fuel rng2 acc res h

/-- The outer loop over conditions produces one group of exactly
`P.numTrials` valid trials per condition. -/
lemma runConds_spec (P : SimParams) (std : ℚ)
    (hts : 0 < P.timeStep) (hbar : 0 < P.barrier) (hvd : 0 ≤ P.visualDelay)
    (hmd : 0 ≤ P.motorDelay)
    (hlat : ∀ x ∈ P.distLatencies, 0 ≤ x)
    (htrans : ∀ x ∈ P.distTransitions, 0 ≤ x)
    (hfix : ∀ n v, P.distFix n v ≠ [] ∧ ∀ x ∈ P.distFix n v, P.visualDelay ≤ x) :
    ∀ (conds : List (ℚ × ℚ)) (fuel : ℕ) (rng : Rng)
      (res : List (List TrialRec) × Rng),
      runConds P std conds fuel rng = some res →
      res.1.length = conds.length ∧
      ∀ g ∈ res.1, g.length = P.numTrials ∧
        ∀ tr ∈ g,
          (tr.choice = -1 ∨ tr.choice = 1) ∧
          (P.barrier ≤ tr.fixRDV.getLastD 0 ∨ tr.fixRDV.getLastD 0 ≤ -P.barrier) ∧
          (P.barrier ≤ tr.fixRDV.getLastD 0 → tr.choice = -1) ∧
          (tr.fixRDV.getLastD 0 ≤ -P.barrier → tr.choice = 1) ∧
          (tr.fixItem.getLastD 0 = 1 ∨ tr.fixItem.getLastD 0 = 2) ∧
          0 < tr.rt ∧ tr.rt = tr.fixTime.sum
  | [], fuel, rng, res => by
    intro h
    simp only [runConds] at h
    injection h with h2
    rw [← h2]
    exact ⟨rfl, fun g hg => absurd hg (List.not_mem_nil g)⟩
  | c :: rest, fuel, rng, res => by
    intro h
    simp only [runConds] at h
    split at h
    · simp at h
    · rename_i g hg
      split at h
      · simp at h
      · rename_i gs hgs
        injection h with h2
        obtain ⟨hclen, hcmem⟩ := condLoop_spec P std c.1 c.2 hts hbar hvd hmd
          hlat htrans hfix P.numTrials fuel rng [] g hg
        obtain ⟨hrlen, hrmem⟩ := runConds_spec P std hts hbar hvd hmd hlat
          htrans hfix rest fuel g.2 gs hgs
        rw [← h2]
        constructor
        · simp [hrlen]
        · intro g0 hg0
          rcases List.mem_cons.mp hg0 with rfl | hmem
          · refine ⟨by rw [hclen]; simp, ?_⟩
            intro tr htr
            rcases hcmem tr htr with hin | hprop
            · exact absurd hin (List.not_mem_nil tr)
            · exact hprop
          · exact hrmem g0 hmem

/-- Claim C4: whenever `run_simulations` returns (the fuel sufficed and the
parameters were accepted), it returns exactly `numTrials` completed trials
per condition; every returned trial has a recorded choice that is `-1` when
the RDV crossed the upper barrier and `1` when it crossed the lower barrier
(the final recorded RDV is at or beyond a barrier), its last recorded
fixation is an item fixation (1 or 2), and its total elapsed time is
positive.  Aborted attempts contribute nothing: the result is assembled only
from completed attempts, matching the source where an aborted attempt's
dictionary entries are overwritten by the next attempt at the same
`trialCount` before it can be returned.  The hypotheses are the
non-degeneracy conditions of the empirical distributions. -/
theorem C4_simulator_validity (P : SimParams) (std mu : ℚ)
    (trialConditions : List (ℚ × ℚ)) (fuel : ℕ) (rng : Rng)
    (groups : List (List TrialRec))
    (hP : ParamsOK P)
    (hrun : run_simulations P std mu trialConditions fuel rng = some groups) :
    groups.length = trialConditions.length ∧
    ∀ g ∈ groups, g.length = P.numTrials ∧
      ∀ tr ∈ g,
        (tr.choice = -1 ∨ tr.choice = 1) ∧
        (P.barrier ≤ tr.fixRDV.getLastD 0 ∨ tr.fixRDV.getLastD 0 ≤ -P.barrier) ∧
        (P.barrier ≤ tr.fixRDV.getLastD 0 → tr.choice = -1) ∧
        (tr.fixRDV.getLastD 0 ≤ -P.barrier → tr.choice = 1) ∧
        (tr.fixItem.getLastD 0 = 1 ∨ tr.fixItem.getLastD 0 = 2) ∧
        0 < tr.rt := by
  obtain ⟨hts, hbar, hvd, hmd, hlat, htrans, hfix⟩ := hP
  unfold run_simulations at hrun
  split at hrun
  · simp at hrun
  · split at hrun
    · simp at hrun
    · rename_i gs hgs
      injection hrun with h2
      obtain ⟨hlen, hmem⟩ := runConds_spec P (resolveStd P.d std mu) hts hbar
        hvd hmd hlat htrans hfix trialConditions fuel rng gs hgs
      rw [← h2]
      refine ⟨hlen, ?_⟩
      intro g hg
      obtain ⟨hglen, hgmem⟩ := hmem g hg
      refine ⟨hglen, ?_⟩
      intro tr htr
      obtain ⟨p1, p2, p3, p4, p5, p6, _⟩ := hgmem tr htr
      exact ⟨p1, p2, p3, p4, p5, p6⟩

/-- Claim C4 witness: a concrete one-condition, one-trial simulation (oracle
`[0, 0, 0, 5]`, latency 0, first fixation left of 10 ms crossing the upper
barrier at its first bin) returns one group of one valid trial. -/
theorem C4_witness :
    ([[sampleTrial]] : List (List TrialRec)).length = [((0:ℚ), (0:ℚ))].length ∧
    ∀ g ∈ ([[sampleTrial]] : List (List TrialRec)),
      g.length = sampleParams.numTrials ∧
      ∀ tr ∈ g,
        (tr.choice = -1 ∨ tr.choice = 1) ∧
        (sampleParams.barrier ≤ tr.fixRDV.getLastD 0 ∨
          tr.fixRDV.getLastD 0 ≤ -sampleParams.barrier) ∧
        (sampleParams.barrier ≤ tr.fixRDV.getLastD 0 → tr.choice = -1) ∧
        (tr.fixRDV.getLastD 0 ≤ -sampleParams.barrier → tr.choice = 1) ∧
        (tr.fixItem.getLastD 0 = 1 ∨ tr.fixItem.getLastD 0 = 2) ∧
        0 < tr.rt :=
  C4_simulator_validity sampleParams 1 0 [(0, 0)] 2 [0, 0, 0, 5]
    [[sampleTrial]]
    (by
      refine ⟨by norm_num [sampleParams], by norm_num [sampleParams],
        by norm_num [sampleParams], by norm_num [sampleParams], ?_, ?_, ?_⟩
      · intro x hx
        simp [sampleParams] at hx
        rw [hx]
      · intro x hx
        simp [sampleParams] at hx
        rw [hx]
      · intro n v
        refine ⟨by simp [sampleParams], ?_⟩
        intro x hx
        simp [sampleParams] at hx
        rw [hx]
        norm_num [sampleParams])
    (by
      norm_num [sampleParams, sampleTrial, run_simulations, runConds, condLoop,
        trialAttempt, latencyPhase, fixLoop, crossRec, diffuse, choiceFrom,
        rngNext, binsOf, binFloor, pymod, resolveStd])

/-- The reaction time of a completed fixation-loop record equals the sum of
its recorded fixation durations, unconditionally. -/
lemma fixLoop_rt (P : SimParams) (std vLeft vRight : ℚ) :
    ∀ (fuel : ℕ) (rdv trialTime currFixTime : ℚ) (currFixItem : ℤ)
      (fixNumber : ℕ) (accI : List ℤ) (accT accR : List ℚ) (rng : Rng)
      (tr : TrialRec) (rng1 : Rng),
      fixLoop P std vLeft vRight fuel rdv trialTime currFixTime currFixItem
        fixNumber accI accT accR rng = some (.completed tr rng1) →
      trialTime = accT.sum →
      tr.rt = tr.fixTime.sum
  | 0, rdv, trialTime, currFixTime, currFixItem, fixNumber, accI, accT, accR,
    rng, tr, rng1 => by
    intro h
    simp [fixLoop] at h
  | fuel + 1, rdv, trialTime, currFixTime, currFixItem, fixNumber, accI, accT,
    accR, rng, tr, rng1 => by
    intro h hsum
    simp only [fixLoop] at h
    split at h
    · injection h with h2
      injection h2 with h3 h4
      subst h3
      simp only [crossRec]
      rw [List.sum_append, hsum]
      simp
    · set mean := if currFixItem = 1 then P.d * (vLeft - P.theta * vRight)
        else P.d * (-vRight + P.theta * vLeft) with hmean
      split at h
      · injection h with h2
        injection h2 with h3 h4
        subst h3
        simp only [crossRec]
        rw [List.sum_append, hsum]
        simp
      · split at h
        · simp at h
        · exact fixLoop_rt P std vLeft vRight fuel _ _ _ _ _ _ _ _ _ tr rng1 h
            (by simp [List.sum_append, hsum]; ring)

/-- The reaction time of a completed attempt equals the sum of its recorded
fixation durations, unconditionally. -/
lemma trialAttempt_rt (P : SimParams) (std vLeft vRight : ℚ) (fuel : ℕ)
    (rng : Rng) (tr : TrialRec) (rng1 : Rng)
    (h : trialAttempt P std vLeft vRight fuel rng = some (.completed tr rng1)) :
    tr.rt = tr.fixTime.sum := by
  unfold trialAttempt at h
  split at h
  · simp at h
  · exact fixLoop_rt P std vLeft vRight fuel _ _ _ _ _ _ _ _ _ tr rng1 h
      (by simp)

/-- The reaction-time identity holds for every record collected by the
per-condition loop. -/
lemma condLoop_rt (P : SimParams) (std vLeft vRight : ℚ) :
    ∀ (remaining fuel : ℕ) (rng : Rng) (acc : List TrialRec)
      (res : List TrialRec × Rng),
      condLoop P std vLeft vRight remaining fuel rng acc = some res →
      (∀ tr ∈ acc, tr.rt = tr.fixTime.sum) →
      ∀ tr ∈ res.1, tr.rt = tr.fixTime.sum
  | 0, fuel, rng, acc, res => by
    intro h hacc
    simp only [condLoop] at h
    injection h with h2
    rw [← h2]
    exact hacc
  | remaining + 1, 0, rng, acc, res => by
    intro h
    simp [condLoop] at h
  | remaining + 1, fuel + 1, rng, acc, res => by
    intro h hacc
    simp only [condLoop] at h
    split at h
    · simp at h
    · rename_i rec0 rng2 hta
      refine condLoop_rt P std vLeft vRight remaining fuel rng2 (acc ++ [rec0])
        res h ?_
      intro tr htr
      rcases List.mem_append.mp htr with h1 | h1
      · exact hacc tr h1
      · rw [List.mem_singleton.mp h1]
        exact trialAttempt_rt P std vLeft vRight (fuel + 1) rng rec0 rng2 hta
    · rename_i rng2 hta
      exact condLoop_rt P std vLeft vRight (remaining + 1) fuel rng2 acc res h hacc

/-- The reaction-time identity holds for every record of every group. -/
lemma runConds_rt (P : SimParams) (std : ℚ) :
    ∀ (conds : List (ℚ × ℚ)) (fuel : ℕ) (rng : Rng)
      (res : List (List TrialRec) × Rng),
      runConds P std conds fuel rng = some res →
      ∀ g ∈ res.1, ∀ tr ∈ g, tr.rt = tr.fixTime.sum
  | [], fuel, rng, res => by
    intro h
    simp only [runConds] at h
    injection h with h2
    rw [← h2]
    intro g hg
    exact absurd hg (List.not_mem_nil g)
  | c :: rest, fuel, rng, res => by
    intro h
    simp only [runConds] at h
    split at h
    · simp at h
    · rename_i g hg
      split at h
      · simp at h
      · rename_i gs hgs
        injection h with h2
        rw [← h2]
        intro g0 hg0
        rcases List.mem_cons.mp hg0 with h1 | hmem
        · subst h1
          exact condLoop_rt P std c.1 c.2 P.numTrials fuel rng [] g hg
            (fun tr htr => absurd htr (List.not_mem_nil tr))
        · exact runConds_rt P std rest fuel g.2 gs hgs g0 hmem

/-- Claim C10: every completed trial returned by `run_simulations` has its
recorded reaction time exactly equal to the sum of its fixation-duration
list: each branch that appends a duration adds the same quantity to the
running trial time, and the reaction time is the trial time at the
crossing. -/
theorem C10_rt_sum (P : SimParams) (std mu : ℚ)
    (trialConditions : List (ℚ × ℚ)) (fuel : ℕ) (rng : Rng)
    (groups : List (List TrialRec))
    (hrun : run_simulations P std mu trialConditions fuel rng = some groups) :
    ∀ g ∈ groups, ∀ tr ∈ g, tr.rt = tr.fixTime.sum := by
  unfold run_simulations at hrun
  split at hrun
  · simp at hrun
  · split at hrun
    · simp at hrun
    · rename_i gs hgs
      injection hrun with h2
      rw [← h2]
      exact runConds_rt P (resolveStd P.d std mu) trialConditions fuel rng gs hgs

/-- Claim C10 witness: the one-trial simulation records `rt = 10` and
fixation durations `[0, 10]`, whose sum is 10. -/
theorem C10_witness : sampleTrial.rt = sampleTrial.fixTime.sum :=
  C10_rt_sum sampleParams 1 0 [(0, 0)] 2 [0, 0, 0, 5] [[sampleTrial]]
    (by
      norm_num [sampleParams, sampleTrial, run_simulations, runConds, condLoop,
        trialAttempt, latencyPhase, fixLoop, crossRec, diffuse, choiceFrom,
        rngNext, binsOf, binFloor, pymod, resolveStd])
    [sampleTrial] (by simp) sampleTrial (by simp)

end ADDM
